import Mathlib

/-!
A shallow embedding of the skillet skill-synchronization core, translated
from the Go sources (internal/skill, internal/usecase, internal/service,
internal/orchestrator, internal/adapters), together with theorems settling
the specification claims.

Strings from Go are modelled as Lean `String` (name validation works on the
underlying `List Char`); filesystem paths are modelled as lists of path
components; the filesystem itself is a finite association list from paths to
nodes, with the operation semantics of the `os`-backed implementation in
internal/fs/system.go (in particular, `Exists` follows symbolic links, as
`os.Stat` does).
-/

namespace Skillet

/-! ## Skill name validation (internal/skill/skill.go, ValidateName) -/

/-- ASCII alphanumeric test, the character class `[a-zA-Z0-9]` of the Go
pattern `validNamePattern`. -/
def isAlnum (c : Char) : Bool :=
  ('A' ≤ c && c ≤ 'Z') || ('a' ≤ c && c ≤ 'z') || ('0' ≤ c && c ≤ '9')

/-- The regular expression `^[a-zA-Z0-9][a-zA-Z0-9_-]*$` from
internal/skill/skill.go, as a predicate on the character list. -/
def matchesNamePattern : List Char → Bool
  | [] => false
  | c :: cs => isAlnum c && cs.all (fun d => isAlnum d || d == '-' || d == '_')

/-- `strings.Contains(name, "..")`: some position starts with two dots. -/
def hasDotDot : List Char → Bool
  | '.' :: '.' :: _ => true
  | _ :: rest => hasDotDot rest
  | [] => false

/-- Error kinds of `ValidateName`. -/
inductive NameError
  | empty
  | pathSeparator
  | dotDot
  | hiddenName
  | patternMismatch
deriving DecidableEq, Repr

/-- internal/skill/skill.go ValidateName: the sequence of checks performed on
a candidate skill name, in source order. -/
def validateName (s : List Char) : Except NameError Unit :=
  if s = [] then .error .empty
  else if s.contains '/' || s.contains '\\' then .error .pathSeparator
  else if hasDotDot s then .error .dotDot
  else if s.headD ' ' == '.' then .error .hiddenName
  else if !matchesNamePattern s then .error .patternMismatch
  else .ok ()

/-- ValidateName on a Go string. -/
def ValidateName (s : String) : Except NameError Unit :=
  validateName s.data

example : ValidateName "my-skill" = .ok () := rfl
example : ValidateName "../etc" = .error .pathSeparator := rfl
example : ValidateName ".hidden" = .error .hiddenName := rfl
example : ValidateName "-skill" = .error .patternMismatch := rfl
example : ValidateName "123skill" = .ok () := rfl

/-- C6: `ValidateName` accepts iff the name is non-empty, has no path
separators, no `..` substring, no leading dot, and matches
`^[A-Za-z0-9][A-Za-z0-9_-]*$`. -/
theorem validateName_accepts_iff (s : List Char) :
    validateName s = .ok () ↔
      (s ≠ [] ∧ s.contains '/' = false ∧ s.contains '\\' = false ∧
        hasDotDot s = false ∧ s.headD ' ' ≠ '.' ∧ matchesNamePattern s = true) := by
  constructor
  · intro h
    unfold validateName at h
    split_ifs at h with h1 h2 h3 h4 h5
    simp only [Bool.or_eq_true, not_or, Bool.not_eq_true] at h2
    simp only [Bool.not_eq_true] at h3
    simp only [beq_iff_eq] at h4
    simp only [Bool.not_eq_true', Bool.not_eq_false] at h5
    exact ⟨h1, h2.1, h2.2, h3, h4, h5⟩
  · rintro ⟨h1, h2, h3, h4, h5, h6⟩
    unfold validateName
    rw [if_neg h1, if_neg (by rw [h2, h3]; simp), if_neg (by rw [h4]; simp),
      if_neg (by simp only [beq_iff_eq]; exact h5), if_neg (by rw [h6]; simp)]

/-! ## Skills, scopes and categories (internal/skill/skill.go)

Go declares `Scope` and `Category` as integer types whose named constants
are `ScopeGlobal = 0`, `ScopeProject = 1`, `CategoryDefault = 0`,
`CategoryOptional = 1`; other integer values are representable (and hit the
`default` branches of the switches), so both are modelled as `Int`. -/

abbrev Scope := Int

def ScopeGlobal : Scope := 0

def ScopeProject : Scope := 1

abbrev Category := Int

def CategoryDefault : Category := 0

def CategoryOptional : Category := 1

/-- A filesystem path, as a list of components. -/
abbrev Path := List String

/-- internal/skill/skill.go Skill. -/
structure Skill where
  name : String
  description : String
  path : Path
  scope : Scope
  category : Category
deriving DecidableEq, Repr

/-- internal/skill/skill.go Skill.Priority: Project 2, Global 1, default 0. -/
def Skill.priority (s : Skill) : Int :=
  if s.scope = ScopeProject then 2
  else if s.scope = ScopeGlobal then 1
  else 0

/-! ## Conflict resolution (internal/skill/store.go, GetResolved) -/

/-- One step of the `best` map construction in Store.GetResolved: Go's
`if cur, ok := best[sk.Name]; !ok || sk.Priority() > cur.Priority() {
best[sk.Name] = sk }`, on an association list keyed by name. -/
def updateBest (acc : List (String × Skill)) (sk : Skill) : List (String × Skill) :=
  match acc.find? (fun e => e.1 == sk.name) with
  | none => acc ++ [(sk.name, sk)]
  | some e =>
      if sk.priority > e.2.priority then
        acc.map (fun e' => if e'.1 == sk.name then (e'.1, sk) else e')
      else acc

/-- The whole `best` map of Store.GetResolved. -/
def bestByName (skills : List Skill) : List (String × Skill) :=
  skills.foldl updateBest []

/-- The by-name order used by `slices.SortedFunc(..., cmp.Compare(a.Name,
b.Name))`. Go strings compare bytewise; UTF-8 preserves code-point order, so
the `String` order agrees. -/
def nameLe (a b : Skill) : Prop := a.name ≤ b.name

instance : DecidableRel nameLe :=
  fun a b => inferInstanceAs (Decidable (a.name ≤ b.name))

/-- `slices.SortedFunc(..., cmp.Compare(a.Name, b.Name))`: sorting by
ascending name (any correct sort; the values are unique per name). -/
def sortByName (l : List Skill) : List Skill := List.insertionSort nameLe l

/-- Store.GetResolved minus the loading step: fold all loaded skills into the
per-name best map and return the values sorted by name ascending. -/
def resolveSkills (skills : List Skill) : List Skill :=
  sortByName ((bestByName skills).map (fun e => e.2))

/-- Invariant carried by the `best` association list while folding over the
already-seen skills. -/
def BestInv (seen : List Skill) (acc : List (String × Skill)) : Prop :=
  (∀ e ∈ acc, e.2.name = e.1) ∧
  (acc.map Prod.fst).Nodup ∧
  (∀ n, n ∈ acc.map Prod.fst ↔ n ∈ seen.map Skill.name) ∧
  (∀ e ∈ acc, e.2 ∈ seen ∧ ∀ y ∈ seen, y.name = e.1 → y.priority ≤ e.2.priority)

lemma bestInv_nil : BestInv [] [] := by
  refine ⟨by simp, by simp, by simp, by simp⟩

lemma entry_eq_of_nodup_keys {acc : List (String × Skill)}
    (h : (acc.map Prod.fst).Nodup) {a b : String × Skill}
    (ha : a ∈ acc) (hb : b ∈ acc) (hfst : a.1 = b.1) : a = b :=
  List.inj_on_of_nodup_map h ha hb hfst

lemma map_fst_replace (acc : List (String × Skill)) (sk : Skill) :
    (acc.map (fun e' => if e'.1 == sk.name then (e'.1, sk) else e')).map Prod.fst
      = acc.map Prod.fst := by
  rw [List.map_map]
  apply List.map_congr_left
  intro a _
  by_cases h : a.1 = sk.name <;> simp [h]

lemma updateBest_none {acc : List (String × Skill)} {sk : Skill}
    (h : acc.find? (fun e => e.1 == sk.name) = none) :
    updateBest acc sk = acc ++ [(sk.name, sk)] := by
  unfold updateBest
  rw [h]

lemma updateBest_some_lt {acc : List (String × Skill)} {sk : Skill} {e : String × Skill}
    (h : acc.find? (fun e => e.1 == sk.name) = some e)
    (hp : sk.priority > e.2.priority) :
    updateBest acc sk = acc.map (fun e' => if e'.1 == sk.name then (e'.1, sk) else e') := by
  unfold updateBest
  rw [h]
  simp only [if_pos hp]

lemma updateBest_some_ge {acc : List (String × Skill)} {sk : Skill} {e : String × Skill}
    (h : acc.find? (fun e => e.1 == sk.name) = some e)
    (hp : ¬ sk.priority > e.2.priority) :
    updateBest acc sk = acc := by
  unfold updateBest
  rw [h]
  simp only [if_neg hp]

lemma bestInv_update (seen : List Skill) (acc : List (String × Skill)) (sk : Skill)
    (h : BestInv seen acc) : BestInv (seen ++ [sk]) (updateBest acc sk) := by
  obtain ⟨hname, hnodup, hkeys, hval⟩ := h
  cases hfind : acc.find? (fun e => e.1 == sk.name) with
  | none =>
    rw [updateBest_none hfind]
    have hnotin : sk.name ∉ acc.map Prod.fst := by
      intro hmem
      obtain ⟨e, he, hfst⟩ := List.mem_map.mp hmem
      have := List.find?_eq_none.mp hfind e he
      simp [hfst] at this
    refine ⟨?_, ?_, ?_, ?_⟩
    · intro e he
      rcases List.mem_append.mp he with h' | h'
      · exact hname e h'
      · simp at h'; subst h'; rfl
    · rw [List.map_append]
      refine List.Nodup.append hnodup (by simp) ?_
      intro a ha hb
      simp at hb
      subst hb
      exact hnotin ha
    · intro n
      simp only [List.map_append, List.mem_append, List.map_cons, List.map_nil,
        List.mem_singleton, hkeys n]
    · intro e he
      rcases List.mem_append.mp he with h' | h'
      · obtain ⟨hmem, hmax⟩ := hval e h'
        refine ⟨List.mem_append.mpr (Or.inl hmem), ?_⟩
        intro y hy hyname
        rcases List.mem_append.mp hy with hy' | hy'
        · exact hmax y hy' hyname
        · simp at hy'; subst hy'
          exfalso
          apply hnotin
          rw [hyname]
          exact List.mem_map.mpr ⟨e, h', rfl⟩
      · simp at h'; subst h'
        refine ⟨List.mem_append.mpr (Or.inr (by simp)), ?_⟩
        intro y hy hyname
        simp only at hyname
        rcases List.mem_append.mp hy with hy' | hy'
        · exfalso
          apply hnotin
          have hseen : sk.name ∈ seen.map Skill.name := by
            rw [← hyname]
            exact List.mem_map.mpr ⟨y, hy', rfl⟩
          exact (hkeys sk.name).mpr hseen
        · simp at hy'; subst hy'; exact le_refl _
  | some e =>
    have hin : e ∈ acc := List.mem_of_find?_eq_some hfind
    have hkey : e.1 = sk.name := by
      have := List.find?_some hfind
      simpa using this
    have hkeyseen : sk.name ∈ seen.map Skill.name := by
      have h1 : e.1 ∈ acc.map Prod.fst := List.mem_map.mpr ⟨e, hin, rfl⟩
      have h2 := (hkeys e.1).mp h1
      rwa [hkey] at h2
    by_cases hpri : sk.priority > e.2.priority
    · rw [updateBest_some_lt hfind hpri]
      have hmapkeys := map_fst_replace acc sk
      refine ⟨?_, ?_, ?_, ?_⟩
      · intro e' he'
        obtain ⟨a, ha, hfa⟩ := List.mem_map.mp he'
        by_cases hcase : a.1 = sk.name
        · have hfa' : (a.1, sk) = e' := by rw [← hfa]; simp [hcase]
          rw [← hfa']
          exact hcase.symm
        · have hfa' : a = e' := by rw [← hfa]; simp [hcase]
          rw [← hfa']
          exact hname a ha
      · rw [hmapkeys]; exact hnodup
      · intro n
        rw [hmapkeys]
        simp only [List.map_append, List.mem_append, List.map_cons, List.map_nil,
          List.mem_singleton, hkeys n]
        constructor
        · exact Or.inl
        · rintro (h' | h')
          · exact h'
          · rw [h']; exact hkeyseen
      · intro e' he'
        obtain ⟨a, ha, hfa⟩ := List.mem_map.mp he'
        by_cases hcase : a.1 = sk.name
        · have hfa' : (a.1, sk) = e' := by rw [← hfa]; simp [hcase]
          refine ⟨?_, ?_⟩
          · rw [← hfa']; exact List.mem_append.mpr (Or.inr (by simp))
          · intro y hy hyname
            rw [← hfa'] at hyname ⊢
            simp only at hyname ⊢
            rcases List.mem_append.mp hy with hy' | hy'
            · have hbound : y.priority ≤ e.2.priority := by
                refine (hval e hin).2 y hy' ?_
                rw [hyname, hcase, hkey]
              exact le_trans hbound (le_of_lt hpri)
            · simp at hy'; subst hy'; exact le_refl _
        · have hfa' : a = e' := by rw [← hfa]; simp [hcase]
          obtain ⟨hmem, hmax⟩ := hval a ha
          rw [← hfa']
          refine ⟨List.mem_append.mpr (Or.inl hmem), ?_⟩
          intro y hy hyname
          rcases List.mem_append.mp hy with hy' | hy'
          · exact hmax y hy' hyname
          · simp at hy'; subst hy'
            exact absurd hyname.symm hcase
    · rw [updateBest_some_ge hfind hpri]
      refine ⟨hname, hnodup, ?_, ?_⟩
      · intro n
        simp only [List.map_append, List.mem_append, List.map_cons, List.map_nil,
          List.mem_singleton, hkeys n]
        constructor
        · exact Or.inl
        · rintro (h' | h')
          · exact h'
          · rw [h']; exact hkeyseen
      · intro e' he'
        obtain ⟨hmem, hmax⟩ := hval e' he'
        refine ⟨List.mem_append.mpr (Or.inl hmem), ?_⟩
        intro y hy hyname
        rcases List.mem_append.mp hy with hy' | hy'
        · exact hmax y hy' hyname
        · simp at hy'; subst hy'
          have he'e : e' = e :=
            entry_eq_of_nodup_keys hnodup he' hin (by rw [← hyname, hkey])
          rw [he'e]
          exact le_of_not_lt hpri

lemma bestInv_foldl (skills : List Skill) :
    ∀ (seen : List Skill) (acc : List (String × Skill)), BestInv seen acc →
      BestInv (seen ++ skills) (skills.foldl updateBest acc) := by
  induction skills with
  | nil => intro seen acc h; simpa using h
  | cons sk rest ih =>
    intro seen acc h
    have h2 := ih (seen ++ [sk]) (updateBest acc sk) (bestInv_update seen acc sk h)
    simpa [List.append_assoc] using h2

lemma bestInv_bestByName (skills : List Skill) : BestInv skills (bestByName skills) := by
  have := bestInv_foldl skills [] [] bestInv_nil
  simpa using this

lemma sortByName_perm (l : List Skill) : List.Perm (sortByName l) l :=
  List.perm_insertionSort nameLe l

lemma sortByName_sorted (l : List Skill) : List.Sorted nameLe (sortByName l) := by
  haveI : IsTotal Skill nameLe := ⟨fun a b => le_total a.name b.name⟩
  haveI : IsTrans Skill nameLe := ⟨fun _ _ _ => le_trans⟩
  exact List.sorted_insertionSort nameLe l

example :
    resolveSkills
      [⟨"x", "G", ["g"], ScopeGlobal, CategoryDefault⟩,
       ⟨"x", "P", ["p"], ScopeProject, CategoryDefault⟩] =
      [⟨"x", "P", ["p"], ScopeProject, CategoryDefault⟩] := by rfl

/-- C2: the resolved skill list contains, for each name in the loaded
collection, exactly one skill; that skill comes from the collection and has
maximal priority among the same-named skills (Project 2 beats Global 1,
anything else 0); and the list is sorted by name ascending. -/
theorem resolveSkills_spec (skills : List Skill) :
    ((resolveSkills skills).map Skill.name).Nodup ∧
    (∀ n, n ∈ (resolveSkills skills).map Skill.name ↔ n ∈ skills.map Skill.name) ∧
    (∀ x ∈ resolveSkills skills, x ∈ skills ∧
      ∀ y ∈ skills, y.name = x.name → y.priority ≤ x.priority) ∧
    List.Sorted nameLe (resolveSkills skills) := by
  obtain ⟨hname, hnodup, hkeys, hval⟩ := bestInv_bestByName skills
  have hperm : List.Perm (resolveSkills skills) ((bestByName skills).map (fun e => e.2)) :=
    sortByName_perm _
  have hnamemap : ((bestByName skills).map (fun e => e.2)).map Skill.name
      = (bestByName skills).map Prod.fst := by
    rw [List.map_map]
    apply List.map_congr_left
    intro a ha
    exact hname a ha
  refine ⟨?_, ?_, ?_, sortByName_sorted _⟩
  · refine (List.Perm.nodup_iff (hperm.map Skill.name)).mpr ?_
    rw [hnamemap]
    exact hnodup
  · intro n
    rw [(hperm.map Skill.name).mem_iff, hnamemap]
    exact hkeys n
  · intro x hx
    have hx' : x ∈ (bestByName skills).map (fun e => e.2) := hperm.mem_iff.mp hx
    obtain ⟨e, he, hfe⟩ := List.mem_map.mp hx'
    obtain ⟨hmem, hmax⟩ := hval e he
    subst hfe
    refine ⟨hmem, ?_⟩
    intro y hy hyn
    refine hmax y hy ?_
    rw [hyn]
    exact hname e he

/-! ## Filesystem model (internal/fs/system.go, internal/platform/fs)

A filesystem is a finite association list from paths to nodes.  All
operations preserve key uniqueness when starting from a unique-key list; the
lemmas below only depend on the predicates being functions of the key, so
they hold regardless.  `Exists` follows symbolic links (like `os.Stat`); link
targets in this system are always plain files or directories, so one hop of
resolution is modelled.  Paths reached *through* a symlinked directory are
not modelled (no claim exercises them). -/

inductive FsNode
  | file (content : String)
  | dir
  | symlink (target : Path)
deriving DecidableEq, Repr

abbrev Fs := List (Path × FsNode)

/-- Error kinds used across the embedding. -/
inductive Err
  | notExist
  | alreadyExists
  | projectRootNotSet
  | unknownScope
  | alreadyInstalled
  | notInstalled
  | installFailed
  | copyFailed
  | readDirFailed
  | skillNotFound
  | frontmatterMissing
  | invalidName (e : NameError)
  | loadFailed
deriving DecidableEq, Repr

def lookupFs (fs : Fs) (p : Path) : Option FsNode :=
  (fs.find? (fun e => e.1 == p)).map (fun e => e.2)

/-- Replace (or create) the binding at `p`. -/
def setFs (fs : Fs) (p : Path) (n : FsNode) : Fs :=
  (p, n) :: fs.filter (fun e => !(e.1 == p))

/-- `os.Stat` succeeding on a plain file or directory. -/
def statPlain (fs : Fs) (p : Path) : Bool :=
  match lookupFs fs p with
  | some (.file _) => true
  | some .dir => true
  | _ => false

/-- fs.Exists: `os.Stat(path) == nil`; follows a symlink to its target. -/
def existsFs (fs : Fs) (p : Path) : Bool :=
  match lookupFs fs p with
  | some (.file _) => true
  | some .dir => true
  | some (.symlink t) => statPlain fs t
  | none => false

/-- fs.IsDir: `os.Stat` (following a symlink) reports a directory. -/
def isDirFs (fs : Fs) (p : Path) : Bool :=
  match lookupFs fs p with
  | some .dir => true
  | some (.symlink t) =>
    match lookupFs fs t with
    | some .dir => true
    | _ => false
  | _ => false

/-- fs.RemoveAll: delete the path and everything below it (never errors, as
`os.RemoveAll` does not error on a missing path). -/
def removeAllFs (fs : Fs) (p : Path) : Fs :=
  fs.filter (fun e => !(p.isPrefixOf e.1))

/-- fs.Rename: move the whole subtree; errors if the source is missing. -/
def renameFs (fs : Fs) (src dst : Path) : Except Err Fs :=
  if (lookupFs fs src).isSome then
    .ok (fs.map (fun e =>
      if src.isPrefixOf e.1 then (dst ++ e.1.drop src.length, e.2) else e))
  else .error .notExist

/-- fs.Symlink: `os.Symlink` fails when the link name is already taken
(even by a dangling link); otherwise records the link. -/
def symlinkFs (fs : Fs) (target link : Path) : Except Err Fs :=
  if (lookupFs fs link).isSome then .error .alreadyExists
  else .ok (setFs fs link (.symlink target))

/-- fs.CopyDir: copy the subtree below `src` to `dst`; errors unless the
source is a plain directory. -/
def copyDirFs (fs : Fs) (src dst : Path) : Except Err Fs :=
  match lookupFs fs src with
  | some .dir =>
      .ok ((fs.filter (fun e => src.isPrefixOf e.1)).foldl
        (fun acc e => setFs acc (dst ++ e.1.drop src.length) e.2) fs)
  | _ => .error .notExist

/-- One directory entry from fs.ReadDir. -/
structure DirEntry where
  name : String
  node : FsNode
deriving DecidableEq, Repr

def DirEntry.isDir (e : DirEntry) : Bool := e.node == .dir

def DirEntry.isSymlink (e : DirEntry) : Bool :=
  match e.node with
  | .symlink _ => true
  | _ => false

/-- fs.ReadDir: immediate children of a directory; errors on non-directories
like `os.ReadDir`. -/
def readDirFs (fs : Fs) (p : Path) : Except Err (List DirEntry) :=
  if isDirFs fs p then
    .ok ((fs.filter (fun e => e.1.length == p.length + 1 && p.isPrefixOf e.1)).map
      (fun e => ⟨e.1.getLastD "", e.2⟩))
  else .error .notExist

/-- fs.ReadFile (follows a symlink). -/
def readFileFs (fs : Fs) (p : Path) : Except Err String :=
  match lookupFs fs p with
  | some (.file c) => .ok c
  | some (.symlink t) =>
    match lookupFs fs t with
    | some (.file c) => .ok c
    | _ => .error .notExist
  | _ => .error .notExist

/-- Auxiliary list of the nonempty prefixes of a path, shortest first. -/
def pathPrefixes (p : Path) : List Path :=
  (List.range p.length).map (fun i => p.take (i + 1))

def mkdirList (fs : Fs) : List Path → Fs
  | [] => fs
  | q :: rest =>
      mkdirList (if (lookupFs fs q).isSome then fs else setFs fs q .dir) rest

/-- fs.MkdirAll: create the directory and all missing ancestors (existing
bindings are left untouched; `os.MkdirAll` on an existing directory is a
no-op). -/
def mkdirAllFs (fs : Fs) (p : Path) : Fs :=
  mkdirList fs (pathPrefixes p)

/-! Key lemmas about the primitive operations.  All filters and finds used by
the operations test only the key of a binding, so first-match lookup commutes
with them. -/

lemma lookupFs_nil (p : Path) : lookupFs [] p = none := rfl

lemma lookupFs_cons (e : Path × FsNode) (fs : Fs) (p : Path) :
    lookupFs (e :: fs) p = if e.1 = p then some e.2 else lookupFs fs p := by
  unfold lookupFs
  by_cases h : e.1 = p
  · simp [List.find?, h]
  · simp only [List.find?]
    rw [if_neg h]
    have : (e.1 == p) = false := by simpa using h
    rw [this]

lemma lookupFs_filter_key (fs : Fs) (pred : Path → Bool) (q : Path) :
    lookupFs (fs.filter (fun e => pred e.1)) q =
      if pred q then lookupFs fs q else none := by
  induction fs with
  | nil => simp [lookupFs]
  | cons e fs ih =>
    by_cases hq : e.1 = q
    · subst hq
      cases hp : pred e.1 with
      | true => simp [List.filter_cons, hp, lookupFs_cons]
      | false => simp [List.filter_cons, hp, lookupFs_cons, ih]
    · cases hp : pred e.1 with
      | true => simp [List.filter_cons, hp, lookupFs_cons, hq, ih]
      | false => simp [List.filter_cons, hp, lookupFs_cons, hq, ih]

lemma lookupFs_setFs (fs : Fs) (p : Path) (n : FsNode) (q : Path) :
    lookupFs (setFs fs p n) q = if p = q then some n else lookupFs fs q := by
  unfold setFs
  rw [lookupFs_cons]
  by_cases h : p = q
  · simp [h]
  · rw [if_neg h, if_neg h]
    have hk : lookupFs (fs.filter (fun e => !(e.1 == p))) q =
        if !(q == p) then lookupFs fs q else none :=
      lookupFs_filter_key fs (fun x => !(x == p)) q
    rw [hk]
    have hqp : ((q == p) : Bool) = false := by simpa using (Ne.symm h)
    simp [hqp]

lemma lookupFs_removeAll (fs : Fs) (p q : Path) :
    lookupFs (removeAllFs fs p) q =
      if p.isPrefixOf q then none else lookupFs fs q := by
  unfold removeAllFs
  have hk : lookupFs (fs.filter (fun e => !(p.isPrefixOf e.1))) q =
      if !(p.isPrefixOf q) then lookupFs fs q else none :=
    lookupFs_filter_key fs (fun x => !(p.isPrefixOf x)) q
  rw [hk]
  cases h : p.isPrefixOf q <;> simp [h]

lemma lookupFs_mkdirList (fs : Fs) (l : List Path) (q : Path) (h : q ∉ l) :
    lookupFs (mkdirList fs l) q = lookupFs fs q := by
  induction l generalizing fs with
  | nil => rfl
  | cons a rest ih =>
    have hqa : q ≠ a := by
      intro hc
      exact h (by simp [hc])
    have hrest : q ∉ rest := fun hc => h (by simp [hc])
    unfold mkdirList
    by_cases ha : (lookupFs fs a).isSome
    · rw [if_pos ha]
      exact ih fs hrest
    · rw [if_neg ha, ih _ hrest, lookupFs_setFs, if_neg (Ne.symm hqa)]

lemma lookupFs_mkdirList_preserved (fs : Fs) (l : List Path) (q : Path) (v : FsNode)
    (h : lookupFs fs q = some v) :
    lookupFs (mkdirList fs l) q = some v := by
  induction l generalizing fs with
  | nil => exact h
  | cons a rest ih =>
    unfold mkdirList
    by_cases ha : (lookupFs fs a).isSome
    · rw [if_pos ha]
      exact ih fs h
    · rw [if_neg ha]
      apply ih
      rw [lookupFs_setFs]
      by_cases haq : a = q
      · subst haq
        rw [h] at ha
        simp at ha
      · rw [if_neg haq]
        exact h

lemma take_isPrefixOf (l : List String) (n : Nat) : (l.take n).isPrefixOf l = true := by
  induction l generalizing n with
  | nil => cases n <;> rfl
  | cons a t ih =>
    cases n with
    | zero => rfl
    | succ m => simp [List.take_succ_cons, List.isPrefixOf, ih]

lemma mem_pathPrefixes (p q : Path) (h : q ∈ pathPrefixes p) : q.isPrefixOf p = true := by
  unfold pathPrefixes at h
  obtain ⟨i, _, rfl⟩ := List.mem_map.mp h
  exact take_isPrefixOf p (i + 1)

lemma lookupFs_mkdirAll_not_pre (fs : Fs) (p q : Path) (h : q.isPrefixOf p = false) :
    lookupFs (mkdirAllFs fs p) q = lookupFs fs q := by
  apply lookupFs_mkdirList
  intro hc
  rw [mem_pathPrefixes p q hc] at h
  exact Bool.false_ne_true h.symm

lemma lookupFs_mkdirAll_preserved (fs : Fs) (p q : Path) (v : FsNode)
    (h : lookupFs fs q = some v) :
    lookupFs (mkdirAllFs fs p) q = some v :=
  lookupFs_mkdirList_preserved fs _ q v h

/-! ## Target abstraction (internal/usecase target, internal/adapters/target.go
— both generations implement identical logic) -/

/-- config.Strategy is a Go string type. -/
abbrev Strategy := String

def StrategySymlink : Strategy := "symlink"

def StrategyCopy : Strategy := "copy"

/-- A target's configured paths (`TargetDef` plus the name). -/
structure Target where
  name : String
  globalPath : Path
  projectPath : Path
  skillsDir : String
deriving DecidableEq, Repr

/-- The ambient home directory and project root.  A Go empty-string project
root is the empty path `[]`. -/
structure Env where
  home : Path
  projectRoot : Path
deriving DecidableEq, Repr

/-- config.ExpandPath: replace a leading `~` with the home directory. -/
def expandPath (home : Path) (p : Path) : Path :=
  match p with
  | "~" :: rest => home ++ rest
  | _ => p

/-- Target.GetSkillsPath: global root expanded plus the skills subdirectory,
or project root + project-relative path + skills subdirectory; fails with
`projectRootNotSet` when no project root is known, and with `unknownScope`
on any other scope value. -/
def getSkillsPath (env : Env) (t : Target) (scope : Scope) : Except Err Path :=
  if scope = ScopeGlobal then
    .ok (expandPath env.home t.globalPath ++ [t.skillsDir])
  else if scope = ScopeProject then
    if env.projectRoot = ([] : Path) then .error .projectRootNotSet
    else .ok (env.projectRoot ++ t.projectPath ++ [t.skillsDir])
  else .error .unknownScope

/-- Target.GetInstalledPath: the Project-scope location if it exists, else
the Global-scope location if it exists, else nothing. -/
def getInstalledPath (env : Env) (t : Target) (fs : Fs) (skillName : String) : Option Path :=
  let tryScope := fun (scope : Scope) =>
    match getSkillsPath env t scope with
    | .ok p => if existsFs fs (p ++ [skillName]) then some (p ++ [skillName]) else none
    | .error _ => none
  match tryScope ScopeProject with
  | some p => some p
  | none => tryScope ScopeGlobal

/-- Target.IsInstalled. -/
def isInstalled (env : Env) (t : Target) (fs : Fs) (skillName : String) : Bool :=
  (getInstalledPath env t fs skillName).isSome

/-- Target.IsInstalledInScope. -/
def isInstalledInScope (env : Env) (t : Target) (fs : Fs) (skillName : String)
    (scope : Scope) : Bool :=
  match getSkillsPath env t scope with
  | .ok p => existsFs fs (p ++ [skillName])
  | .error _ => false

structure InstallOptions where
  strategy : Strategy
  force : Bool
deriving DecidableEq, Repr

/-- The tail of Target.Install after the occupied-destination check: ensure
the destination directory exists, then link or copy per the strategy
(symlink falls back to a recursive copy; an unknown strategy behaves like
symlink). -/
def installAt (s : Skill) (strategy : Strategy) (destDir : Path) (fs : Fs) :
    Except Err Unit × Fs :=
  let destPath := destDir ++ [s.name]
  let fs2 := mkdirAllFs fs destDir
  if strategy = StrategySymlink then
    match symlinkFs fs2 s.path destPath with
    | .ok fs3 => (.ok (), fs3)
    | .error _ =>
      match copyDirFs fs2 s.path destPath with
      | .ok fs3 => (.ok (), fs3)
      | .error _ => (.error .installFailed, fs2)
  else if strategy = StrategyCopy then
    match copyDirFs fs2 s.path destPath with
    | .ok fs3 => (.ok (), fs3)
    | .error _ => (.error .copyFailed, fs2)
  else
    match symlinkFs fs2 s.path destPath with
    | .ok fs3 => (.ok (), fs3)
    | .error _ =>
      match copyDirFs fs2 s.path destPath with
      | .ok fs3 => (.ok (), fs3)
      | .error _ => (.error .installFailed, fs2)

/-- Target.Install: resolve the destination from the skill's scope; if the
destination is occupied, fail with `alreadyInstalled` unless `force`, which
first removes the existing entry recursively; then install. -/
def installSkill (env : Env) (t : Target) (s : Skill) (opts : InstallOptions)
    (fs : Fs) : Except Err Unit × Fs :=
  match getSkillsPath env t s.scope with
  | .error e => (.error e, fs)
  | .ok destDir =>
    if existsFs fs (destDir ++ [s.name]) then
      if !opts.force then (.error .alreadyInstalled, fs)
      else installAt s opts.strategy destDir (removeAllFs fs (destDir ++ [s.name]))
    else installAt s opts.strategy destDir fs

/-- Target.Uninstall: resolve via GetInstalledPath (Project over Global);
fail with `notInstalled` when neither scope has the name, else remove the
single resolved location recursively. -/
def uninstallSkill (env : Env) (t : Target) (skillName : String) (fs : Fs) :
    Except Err Unit × Fs :=
  match getInstalledPath env t fs skillName with
  | none => (.error .notInstalled, fs)
  | some p => (.ok (), removeAllFs fs p)

/-- Fold used to deduplicate the `skillSet` of Target.ListInstalled. -/
def insertUnique (acc : List String) (x : String) : List String :=
  if acc.contains x then acc else acc ++ [x]

def dedupNames (l : List String) : List String := l.foldl insertUnique []

/-- One scope's contribution to Target.ListInstalled: skipped when the scope
path cannot be resolved or does not exist; an unreadable directory is an
error; directory and symlink entries count. -/
def listInstalledStep (env : Env) (t : Target) (fs : Fs) (acc : List String)
    (scope : Scope) : Except Err (List String) :=
  match getSkillsPath env t scope with
  | .error _ => .ok acc
  | .ok dir =>
    if !(existsFs fs dir) then .ok acc
    else
      match readDirFs fs dir with
      | .error _ => .error .readDirFailed
      | .ok entries =>
        .ok (acc ++ (entries.filter (fun e => e.isDir || e.isSymlink)).map DirEntry.name)

/-- Target.ListInstalled: the deduplicated union of entry names under the
Global and Project skills paths. -/
def listInstalled (env : Env) (t : Target) (fs : Fs) : Except Err (List String) := do
  let a ← listInstalledStep env t fs [] ScopeGlobal
  let b ← listInstalledStep env t fs a ScopeProject
  pure (dedupNames b)

/-- Boolean form of ValidateName. -/
def validName (s : String) : Bool :=
  match ValidateName s with
  | .ok _ => true
  | .error _ => false

/-- IsValidSkillDir with explicit fuel: Go guards `depth > 5` with depth 0 at
the root, i.e. 6 admissible levels, modelled as fuel counting down from 6. -/
def isValidSkillDirAux (fs : Fs) : Nat → Path → Bool
  | 0, _ => false
  | fuel + 1, dir =>
    if existsFs fs (dir ++ ["SKILL.md"]) then true
    else
      match readDirFs fs dir with
      | .error _ => false
      | .ok entries =>
        entries.any (fun e => e.isDir && isValidSkillDirAux fs fuel (dir ++ [e.name]))

/-- internal/skill/skill.go IsValidSkillDir: a SKILL.md exists in the
directory or (up to depth 5) in some subdirectory. -/
def isValidSkillDir (fs : Fs) (dir : Path) : Bool :=
  isValidSkillDirAux fs 6 dir

/-- Target.ListMigratable: non-symlink directory entries of the scope's
skills path whose names validate and which qualify as skill directories. -/
def listMigratable (env : Env) (t : Target) (fs : Fs) (scope : Scope) :
    Except Err (List String) :=
  match getSkillsPath env t scope with
  | .error e => .error e
  | .ok dir =>
    if !(existsFs fs dir) || !(isDirFs fs dir) then .ok []
    else
      match readDirFs fs dir with
      | .error _ => .error .readDirFailed
      | .ok entries =>
        .ok ((entries.filter (fun e =>
          !e.isSymlink && e.isDir && validName e.name &&
            isValidSkillDir fs (dir ++ [e.name]))).map DirEntry.name)

/-! ## C7 and C8: install/uninstall behaviour at one target -/

lemma existsFs_dir {fs : Fs} {p : Path} (h : lookupFs fs p = some .dir) :
    existsFs fs p = true := by
  unfold existsFs
  rw [h]

lemma existsFs_none {fs : Fs} {p : Path} (h : lookupFs fs p = none) :
    existsFs fs p = false := by
  unfold existsFs
  rw [h]

lemma isPrefixOf_refl (p : Path) : p.isPrefixOf p = true := by
  have := take_isPrefixOf p p.length
  rwa [List.take_length] at this

/-- C7: with an occupied destination, Install without force fails with
`alreadyInstalled` and leaves the filesystem untouched; with force it first
removes the occupying entry recursively and then performs the normal install
steps on the cleaned state. -/
theorem install_occupied_force (env : Env) (t : Target) (s : Skill)
    (opts : InstallOptions) (fs : Fs) (destDir : Path)
    (hdd : getSkillsPath env t s.scope = .ok destDir)
    (hex : existsFs fs (destDir ++ [s.name]) = true) :
    (opts.force = false →
      installSkill env t s opts fs = (.error .alreadyInstalled, fs)) ∧
    (opts.force = true →
      installSkill env t s opts fs =
        installAt s opts.strategy destDir (removeAllFs fs (destDir ++ [s.name]))) := by
  constructor
  · intro hf
    simp [installSkill, hdd, hex, hf]
  · intro hf
    simp [installSkill, hdd, hex, hf]

def envW : Env := ⟨["h"], ["proj"]⟩

def claudeW : Target := ⟨"claude", ["~", ".claude"], [".claude"], "skills"⟩

def codexW : Target := ⟨"codex", ["~", ".codex"], [".codex"], "skills"⟩

def skDemoW : Skill :=
  ⟨"demo", "", ["h", ".agents", "skills", "demo"], ScopeGlobal, CategoryDefault⟩

def fsInstallW : Fs :=
  [(["h", ".claude", "skills"], .dir),
   (["h", ".claude", "skills", "demo"], .dir),
   (["h", ".agents", "skills", "demo"], .dir)]

theorem install_occupied_force_witness :
    installSkill envW claudeW skDemoW ⟨StrategySymlink, false⟩ fsInstallW =
      (.error .alreadyInstalled, fsInstallW) :=
  (install_occupied_force envW claudeW skDemoW ⟨StrategySymlink, false⟩ fsInstallW
    ["h", ".claude", "skills"] rfl rfl).1 rfl

/-- C8: Uninstall removes the Project-scope entry when one exists, else the
Global-scope entry when one exists, and fails with `notInstalled` otherwise;
when the name is installed in both scopes the Global copy survives the first
call, a second call removes it, and only then is the name gone. -/
theorem uninstall_scope_precedence (env : Env) (t : Target) (fs : Fs)
    (n : String) (pp gp : Path)
    (hp : getSkillsPath env t ScopeProject = .ok pp)
    (hg : getSkillsPath env t ScopeGlobal = .ok gp) :
    (existsFs fs (pp ++ [n]) = true →
      uninstallSkill env t n fs = (.ok (), removeAllFs fs (pp ++ [n]))) ∧
    (existsFs fs (pp ++ [n]) = false → existsFs fs (gp ++ [n]) = true →
      uninstallSkill env t n fs = (.ok (), removeAllFs fs (gp ++ [n]))) ∧
    (existsFs fs (pp ++ [n]) = false → existsFs fs (gp ++ [n]) = false →
      uninstallSkill env t n fs = (.error .notInstalled, fs)) ∧
    (lookupFs fs (pp ++ [n]) = some .dir → lookupFs fs (gp ++ [n]) = some .dir →
      (pp ++ [n]).isPrefixOf (gp ++ [n]) = false →
      lookupFs (uninstallSkill env t n fs).2 (gp ++ [n]) = some .dir ∧
      uninstallSkill env t n (uninstallSkill env t n fs).2 =
        (.ok (), removeAllFs (uninstallSkill env t n fs).2 (gp ++ [n])) ∧
      lookupFs (uninstallSkill env t n (uninstallSkill env t n fs).2).2
        (gp ++ [n]) = none) := by
  have ha : existsFs fs (pp ++ [n]) = true →
      uninstallSkill env t n fs = (.ok (), removeAllFs fs (pp ++ [n])) := by
    intro h1
    simp [uninstallSkill, getInstalledPath, hp, hg, h1]
  refine ⟨ha, ?_, ?_, ?_⟩
  · intro h1 h2
    simp [uninstallSkill, getInstalledPath, hp, hg, h1, h2]
  · intro h1 h2
    simp [uninstallSkill, getInstalledPath, hp, hg, h1, h2]
  · intro h1 h2 h3
    have e1 : existsFs fs (pp ++ [n]) = true := existsFs_dir h1
    rw [ha e1]
    have hlook1 : lookupFs (removeAllFs fs (pp ++ [n])) (gp ++ [n]) = some .dir := by
      rw [lookupFs_removeAll, if_neg (by rw [h3]; exact Bool.false_ne_true)]
      exact h2
    refine ⟨hlook1, ?_⟩
    have hgone : existsFs (removeAllFs fs (pp ++ [n])) (pp ++ [n]) = false := by
      apply existsFs_none
      rw [lookupFs_removeAll, if_pos (isPrefixOf_refl _)]
    have hb : uninstallSkill env t n (removeAllFs fs (pp ++ [n])) =
        (.ok (), removeAllFs (removeAllFs fs (pp ++ [n])) (gp ++ [n])) := by
      simp [uninstallSkill, getInstalledPath, hp, hg, hgone, existsFs_dir hlook1]
    refine ⟨hb, ?_⟩
    rw [hb]
    rw [lookupFs_removeAll, if_pos (isPrefixOf_refl _)]

def fsUninstallW : Fs :=
  [(["proj", ".claude", "skills", "demo"], .dir),
   (["h", ".claude", "skills", "demo"], .dir)]

theorem uninstall_scope_precedence_witness :
    lookupFs (uninstallSkill envW claudeW "demo" fsUninstallW).2
      (["h", ".claude", "skills"] ++ ["demo"]) = some .dir ∧
    uninstallSkill envW claudeW "demo"
        (uninstallSkill envW claudeW "demo" fsUninstallW).2 =
      (.ok (), removeAllFs (uninstallSkill envW claudeW "demo" fsUninstallW).2
        (["h", ".claude", "skills"] ++ ["demo"])) ∧
    lookupFs (uninstallSkill envW claudeW "demo"
        (uninstallSkill envW claudeW "demo" fsUninstallW).2).2
      (["h", ".claude", "skills"] ++ ["demo"]) = none :=
  (uninstall_scope_precedence envW claudeW fsUninstallW "demo"
    ["proj", ".claude", "skills"] ["h", ".claude", "skills"] rfl rfl).2.2.2
    rfl rfl rfl

/-! ## Synchronization engine (internal/usecase/sync.go) -/

inductive SyncAction
  | install
  | update
  | uninstall
  | skip
  | error
deriving DecidableEq, Repr

structure SyncResult where
  skillName : String
  target : String
  action : SyncAction
  error : Option Err
deriving DecidableEq, Repr

structure SyncOptions where
  dryRun : Bool
  force : Bool
  scope : Option Scope
deriving DecidableEq, Repr

def filterSkillsByScope (skills : List Skill) (scope : Scope) : List Skill :=
  skills.filter (fun s => s.scope == scope)

/-- SyncService.syncSkill: skip an installed skill unless forcing; report
without touching the filesystem on a dry run; otherwise install with
`Force = opts.Force || isInstalled` and the configured strategy (empty
configuration falls back to symlink), converting an install failure into an
`error` action carrying the error. -/
def syncSkill (defaultStrategy : Strategy) (env : Env) (t : Target) (sk : Skill)
    (isInst : Bool) (opts : SyncOptions) (fs : Fs) : SyncResult × Fs :=
  if isInst && !opts.force then
    ({ skillName := sk.name, target := t.name, action := .skip, error := none }, fs)
  else
    let action := if isInst then SyncAction.update else SyncAction.install
    if opts.dryRun then
      ({ skillName := sk.name, target := t.name, action := action, error := none }, fs)
    else
      let strategy := if defaultStrategy = "" then StrategySymlink else defaultStrategy
      match installSkill env t sk ⟨strategy, opts.force || isInst⟩ fs with
      | (.ok _, fs1) =>
        ({ skillName := sk.name, target := t.name, action := action, error := none }, fs1)
      | (.error e, fs1) =>
        ({ skillName := sk.name, target := t.name, action := .error, error := some e }, fs1)

/-- The inner loop of SyncService.Sync for one target: compute
`isInstalled = IsInstalledInScope(name, scope)` per skill and act. -/
def syncSkillsAtTarget (defaultStrategy : Strategy) (env : Env) (t : Target)
    (skills : List Skill) (opts : SyncOptions) (fs : Fs) : List SyncResult × Fs :=
  match skills with
  | [] => ([], fs)
  | sk :: rest =>
    let isInst := isInstalledInScope env t fs sk.name sk.scope
    let step := syncSkill defaultStrategy env t sk isInst opts fs
    let further := syncSkillsAtTarget defaultStrategy env t rest opts step.2
    (step.1 :: further.1, further.2)

/-- The Cartesian-product loop of SyncService.Sync over (targets × resolved
skills); loading and scope filtering happen before this loop. -/
def syncLoop (defaultStrategy : Strategy) (env : Env) (targets : List Target)
    (skills : List Skill) (opts : SyncOptions) (fs : Fs) : List SyncResult × Fs :=
  match targets with
  | [] => ([], fs)
  | t :: rest =>
    let here := syncSkillsAtTarget defaultStrategy env t skills opts fs
    let further := syncLoop defaultStrategy env rest skills opts here.2
    (here.1 ++ further.1, further.2)

/-- The same loop, flattened over explicit (target, skill) pairs; used by the
proofs and related to `syncLoop` below. -/
def runPairs (defaultStrategy : Strategy) (env : Env)
    (pairs : List (Target × Skill)) (opts : SyncOptions) (fs : Fs) :
    List SyncResult × Fs :=
  match pairs with
  | [] => ([], fs)
  | p :: rest =>
    let isInst := isInstalledInScope env p.1 fs p.2.name p.2.scope
    let step := syncSkill defaultStrategy env p.1 p.2 isInst opts fs
    let further := runPairs defaultStrategy env rest opts step.2
    (step.1 :: further.1, further.2)

/-- The pairs visited by the sync loop, in visit order. -/
def pairsOf (targets : List Target) (skills : List Skill) : List (Target × Skill) :=
  targets.flatMap (fun t => skills.map (fun sk => (t, sk)))

lemma runPairs_append (ds : Strategy) (env : Env) (P Q : List (Target × Skill))
    (opts : SyncOptions) (fs : Fs) :
    runPairs ds env (P ++ Q) opts fs =
      ((runPairs ds env P opts fs).1 ++
        (runPairs ds env Q opts (runPairs ds env P opts fs).2).1,
       (runPairs ds env Q opts (runPairs ds env P opts fs).2).2) := by
  induction P generalizing fs with
  | nil => simp [runPairs]
  | cons p rest ih =>
    simp only [List.cons_append, runPairs, List.append_eq]
    rw [ih]

lemma syncSkillsAtTarget_eq_runPairs (ds : Strategy) (env : Env) (t : Target)
    (skills : List Skill) (opts : SyncOptions) (fs : Fs) :
    syncSkillsAtTarget ds env t skills opts fs =
      runPairs ds env (skills.map (fun sk => (t, sk))) opts fs := by
  induction skills generalizing fs with
  | nil => rfl
  | cons sk rest ih =>
    simp only [syncSkillsAtTarget, List.map_cons, runPairs]
    rw [ih]

lemma syncLoop_eq_runPairs (ds : Strategy) (env : Env) (targets : List Target)
    (skills : List Skill) (opts : SyncOptions) (fs : Fs) :
    syncLoop ds env targets skills opts fs =
      runPairs ds env (pairsOf targets skills) opts fs := by
  induction targets generalizing fs with
  | nil => rfl
  | cons t rest ih =>
    have hsplit : pairsOf (t :: rest) skills =
        skills.map (fun sk => (t, sk)) ++ pairsOf rest skills := by
      simp [pairsOf]
    simp only [syncLoop]
    rw [syncSkillsAtTarget_eq_runPairs, ih, hsplit, runPairs_append]

/-! ## Well-formed filesystems (unique keys) and frame lemmas -/

def WfKeys (fs : Fs) : Prop := (fs.map Prod.fst).Nodup

lemma wfKeys_filter (fs : Fs) (pred : Path × FsNode → Bool) (h : WfKeys fs) :
    WfKeys (fs.filter pred) :=
  List.Nodup.sublist (List.Sublist.map Prod.fst (List.filter_sublist fs)) h

lemma wfKeys_setFs (fs : Fs) (p : Path) (n : FsNode) (h : WfKeys fs) :
    WfKeys (setFs fs p n) := by
  unfold WfKeys setFs
  simp only [List.map_cons, List.nodup_cons]
  refine ⟨?_, wfKeys_filter fs _ h⟩
  intro hc
  obtain ⟨e, he, hfst⟩ := List.mem_map.mp hc
  have := (List.mem_filter.mp he).2
  simp [hfst] at this

lemma wfKeys_removeAll (fs : Fs) (p : Path) (h : WfKeys fs) :
    WfKeys (removeAllFs fs p) :=
  wfKeys_filter fs _ h

lemma wfKeys_mkdirList (l : List Path) : ∀ fs : Fs, WfKeys fs → WfKeys (mkdirList fs l) := by
  induction l with
  | nil => intro fs h; exact h
  | cons q rest ih =>
    intro fs h
    unfold mkdirList
    by_cases hq : (lookupFs fs q).isSome
    · rw [if_pos hq]; exact ih fs h
    · rw [if_neg hq]; exact ih _ (wfKeys_setFs fs q .dir h)

lemma wfKeys_mkdirAll (fs : Fs) (p : Path) (h : WfKeys fs) :
    WfKeys (mkdirAllFs fs p) :=
  wfKeys_mkdirList _ fs h

lemma wfKeys_foldl_set (L : List (Path × FsNode)) (g : Path × FsNode → Path) :
    ∀ acc : Fs, WfKeys acc →
      WfKeys (L.foldl (fun acc e => setFs acc (g e) e.2) acc) := by
  induction L with
  | nil => intro acc h; exact h
  | cons e rest ih =>
    intro acc h
    exact ih _ (wfKeys_setFs acc (g e) e.2 h)

lemma lookupFs_mem {fs : Fs} {p : Path} {v : FsNode} (h : lookupFs fs p = some v) :
    (p, v) ∈ fs := by
  unfold lookupFs at h
  cases hf : fs.find? (fun e => e.1 == p) with
  | none => rw [hf] at h; simp at h
  | some e =>
    rw [hf] at h
    simp at h
    have hm := List.mem_of_find?_eq_some hf
    have hp : e.1 = p := by simpa using List.find?_some hf
    have he : e = (p, v) := by rw [← hp, ← h]
    rw [← he]
    exact hm

lemma isPrefixOf_append_any (p r : Path) : p.isPrefixOf (p ++ r) = true := by
  induction p with
  | nil => simp [List.isPrefixOf]
  | cons a t ih => simp [List.isPrefixOf, ih]

lemma isPrefixOf_imp {p q : Path} (h : p.isPrefixOf q = true) : ∃ r, p ++ r = q := by
  induction p generalizing q with
  | nil => exact ⟨q, rfl⟩
  | cons a t ih =>
    cases q with
    | nil => simp [List.isPrefixOf] at h
    | cons b q =>
      simp only [List.isPrefixOf, Bool.and_eq_true, beq_iff_eq] at h
      obtain ⟨r, hr⟩ := ih h.2
      exact ⟨r, by rw [← h.1, ← hr]; rfl⟩

lemma isPrefixOf_length_le {p q : Path} (h : p.isPrefixOf q = true) :
    p.length ≤ q.length := by
  obtain ⟨r, rfl⟩ := isPrefixOf_imp h
  simp

lemma append_singleton_not_pre (dd : Path) (a : String) :
    (dd ++ [a]).isPrefixOf dd = false := by
  cases h : (dd ++ [a]).isPrefixOf dd with
  | false => rfl
  | true =>
    have := isPrefixOf_length_le h
    simp at this

lemma ne_of_not_pre {p q : Path} (h : p.isPrefixOf q = false) : p ≠ q := by
  intro hc
  subst hc
  rw [isPrefixOf_refl] at h
  exact Bool.noConfusion h

lemma lookup_foldl_set_frame (g : Path × FsNode → Path) (x : Path) :
    ∀ (L : List (Path × FsNode)) (acc : Fs), (∀ e ∈ L, g e ≠ x) →
      lookupFs (L.foldl (fun acc e => setFs acc (g e) e.2) acc) x = lookupFs acc x := by
  intro L
  induction L with
  | nil => intro acc _; rfl
  | cons e rest ih =>
    intro acc h
    have hx := h e (by simp)
    simp only [List.foldl_cons]
    rw [ih _ (fun e' he' => h e' (by simp [he']))]
    rw [lookupFs_setFs, if_neg hx]

/-- fs.CopyDir on a unique-key filesystem when the source is a plain
directory: succeeds, puts a directory at the destination, and changes
nothing outside the destination subtree. -/
lemma copyDir_ok (fs : Fs) (src dst : Path) (hwf : WfKeys fs)
    (hsrc : lookupFs fs src = some .dir) :
    ∃ fs1, copyDirFs fs src dst = .ok fs1 ∧ lookupFs fs1 dst = some .dir ∧
      (∀ x, dst.isPrefixOf x = false → lookupFs fs1 x = lookupFs fs x) ∧
      WfKeys fs1 := by
  unfold copyDirFs
  rw [hsrc]
  have hkeysrc : ∀ e ∈ fs.filter (fun e => src.isPrefixOf e.1),
      dst ++ e.1.drop src.length = dst → e.1 = src := by
    intro e he hge
    have hpre : src.isPrefixOf e.1 = true := (List.mem_filter.mp he).2
    obtain ⟨r, hr⟩ := isPrefixOf_imp hpre
    have hdrop : e.1.drop src.length = r := by
      rw [← hr, List.drop_left]
    rw [hdrop] at hge
    have hrnil : r = [] := by
      have hlen := congrArg List.length hge
      simp only [List.length_append] at hlen
      have : r.length = 0 := by omega
      exact List.eq_nil_of_length_eq_zero this
    rw [← hr, hrnil, List.append_nil]
  have hLwf : ((fs.filter (fun e => src.isPrefixOf e.1)).map Prod.fst).Nodup :=
    wfKeys_filter fs _ hwf
  have hmem : (src, FsNode.dir) ∈ fs.filter (fun e => src.isPrefixOf e.1) :=
    List.mem_filter.mpr ⟨lookupFs_mem hsrc, isPrefixOf_refl src⟩
  obtain ⟨L1, L2, hsplit⟩ := List.append_of_mem hmem
  have hnotin : src ∉ L2.map Prod.fst := by
    have h2 : (((src, FsNode.dir) :: L2).map Prod.fst).Nodup := by
      have := hLwf
      rw [hsplit, List.map_append] at this
      exact List.Nodup.of_append_right this
    simp only [List.map_cons, List.nodup_cons] at h2
    exact h2.1
  refine ⟨_, rfl, ?_, ?_, ?_⟩
  · rw [hsplit, List.foldl_append, List.foldl_cons]
    have hframe2 : ∀ e ∈ L2, dst ++ e.1.drop src.length ≠ dst := by
      intro e he hge
      have heL : e ∈ fs.filter (fun e => src.isPrefixOf e.1) := by
        rw [hsplit]; simp [he]
      have := hkeysrc e heL hge
      exact hnotin (List.mem_map.mpr ⟨e, he, this⟩)
    have hfr : lookupFs (List.foldl
        (fun acc e => setFs acc (dst ++ e.1.drop src.length) e.2)
        (setFs (List.foldl (fun acc e => setFs acc (dst ++ e.1.drop src.length) e.2) fs L1)
          (dst ++ (src, FsNode.dir).1.drop src.length) (src, FsNode.dir).2) L2) dst =
        lookupFs (setFs (List.foldl (fun acc e => setFs acc (dst ++ e.1.drop src.length) e.2) fs L1)
          (dst ++ (src, FsNode.dir).1.drop src.length) (src, FsNode.dir).2) dst :=
      lookup_foldl_set_frame (fun e => dst ++ e.1.drop src.length) dst L2 _ hframe2
    rw [hfr]
    have hdropself : (src, FsNode.dir).1.drop src.length = ([] : Path) := by
      simp
    rw [hdropself, List.append_nil, lookupFs_setFs, if_pos rfl]
  · intro x hx
    have hfr : ∀ e ∈ fs.filter (fun e => src.isPrefixOf e.1),
        dst ++ e.1.drop src.length ≠ x := by
      intro e _ hge
      have : dst.isPrefixOf x = true := by
        rw [← hge]
        exact isPrefixOf_append_any dst _
      rw [this] at hx
      exact Bool.noConfusion hx
    exact lookup_foldl_set_frame (fun e => dst ++ e.1.drop src.length) x _ fs hfr
  · exact wfKeys_foldl_set _ (fun e => dst ++ e.1.drop src.length) fs hwf

/-- The normal install steps on an unoccupied destination: make the skills
directory, then symlink (falling back to copy) or copy.  Succeeds, leaves a
link or directory at the destination, and only touches the destination and
missing ancestors of the skills directory. -/
lemma installAt_ok (s : Skill) (strategy : Strategy) (dd : Path) (fs : Fs)
    (hwf : WfKeys fs)
    (hcan : lookupFs fs s.path = some .dir)
    (hdest : lookupFs fs (dd ++ [s.name]) = none)
    (hne : (dd ++ [s.name]).isPrefixOf s.path = false) :
    ∃ fs1, installAt s strategy dd fs = (.ok (), fs1) ∧
      (lookupFs fs1 (dd ++ [s.name]) = some (.symlink s.path) ∨
        lookupFs fs1 (dd ++ [s.name]) = some .dir) ∧
      WfKeys fs1 ∧
      (∀ x v, lookupFs fs x = some v → (dd ++ [s.name]).isPrefixOf x = false →
        lookupFs fs1 x = some v) ∧
      (∀ x, (dd ++ [s.name]).isPrefixOf x = false → x.isPrefixOf dd = false →
        lookupFs fs1 x = lookupFs fs x) := by
  have h2dest : lookupFs (mkdirAllFs fs dd) (dd ++ [s.name]) = none := by
    rw [lookupFs_mkdirAll_not_pre fs dd _ (append_singleton_not_pre dd s.name)]
    exact hdest
  have h2can : lookupFs (mkdirAllFs fs dd) s.path = some .dir :=
    lookupFs_mkdirAll_preserved fs dd s.path .dir hcan
  have h2wf : WfKeys (mkdirAllFs fs dd) := wfKeys_mkdirAll fs dd hwf
  have h2pres : ∀ x v, lookupFs fs x = some v →
      lookupFs (mkdirAllFs fs dd) x = some v := fun x v hx =>
    lookupFs_mkdirAll_preserved fs dd x v hx
  have h2frame : ∀ x, x.isPrefixOf dd = false →
      lookupFs (mkdirAllFs fs dd) x = lookupFs fs x := fun x hx =>
    lookupFs_mkdirAll_not_pre fs dd x hx
  have hsym : symlinkFs (mkdirAllFs fs dd) s.path (dd ++ [s.name]) =
      .ok (setFs (mkdirAllFs fs dd) (dd ++ [s.name]) (.symlink s.path)) := by
    unfold symlinkFs
    rw [h2dest]
    simp
  have hne' : (dd ++ [s.name]) ≠ s.path := ne_of_not_pre hne
  -- facts about the symlink outcome
  have hsymShape : lookupFs (setFs (mkdirAllFs fs dd) (dd ++ [s.name]) (.symlink s.path))
      (dd ++ [s.name]) = some (.symlink s.path) := by
    rw [lookupFs_setFs, if_pos rfl]
  have hsymWf : WfKeys (setFs (mkdirAllFs fs dd) (dd ++ [s.name]) (.symlink s.path)) :=
    wfKeys_setFs _ _ _ h2wf
  have hsymPres : ∀ x v, lookupFs fs x = some v → (dd ++ [s.name]).isPrefixOf x = false →
      lookupFs (setFs (mkdirAllFs fs dd) (dd ++ [s.name]) (.symlink s.path)) x = some v := by
    intro x v hx hpre
    rw [lookupFs_setFs, if_neg (ne_of_not_pre hpre)]
    exact h2pres x v hx
  have hsymFrame : ∀ x, (dd ++ [s.name]).isPrefixOf x = false → x.isPrefixOf dd = false →
      lookupFs (setFs (mkdirAllFs fs dd) (dd ++ [s.name]) (.symlink s.path)) x =
        lookupFs fs x := by
    intro x h1 h2
    rw [lookupFs_setFs, if_neg (ne_of_not_pre h1)]
    exact h2frame x h2
  by_cases hs1 : strategy = StrategySymlink
  · refine ⟨_, ?_, Or.inl hsymShape, hsymWf, hsymPres, hsymFrame⟩
    unfold installAt
    rw [if_pos hs1, hsym]
  · by_cases hs2 : strategy = StrategyCopy
    · obtain ⟨fs3, hcopy, hshape, hframe, hwf3⟩ :=
        copyDir_ok (mkdirAllFs fs dd) s.path (dd ++ [s.name]) h2wf h2can
      refine ⟨fs3, ?_, Or.inr hshape, hwf3, ?_, ?_⟩
      · unfold installAt
        rw [if_neg hs1, if_pos hs2, hcopy]
      · intro x v hx hpre
        rw [hframe x hpre]
        exact h2pres x v hx
      · intro x h1 h2
        rw [hframe x h1]
        exact h2frame x h2
    · refine ⟨_, ?_, Or.inl hsymShape, hsymWf, hsymPres, hsymFrame⟩
      unfold installAt
      rw [if_neg hs1, if_neg hs2, hsym]

lemma isInstalledInScope_eq (env : Env) (t : Target) (fs : Fs) (n : String)
    (scope : Scope) (dd : Path) (hres : getSkillsPath env t scope = .ok dd) :
    isInstalledInScope env t fs n scope = existsFs fs (dd ++ [n]) := by
  unfold isInstalledInScope
  rw [hres]

lemma lookup_none_of_not_exists {fs : Fs} {p : Path}
    (hsyml : ∀ tgt, lookupFs fs p = some (.symlink tgt) → statPlain fs tgt = true)
    (h : existsFs fs p = false) : lookupFs fs p = none := by
  cases hl : lookupFs fs p with
  | none => rfl
  | some v =>
    exfalso
    cases v with
    | file c =>
      unfold existsFs at h
      rw [hl] at h
      exact Bool.noConfusion (show true = false from h)
    | dir =>
      unfold existsFs at h
      rw [hl] at h
      exact Bool.noConfusion (show true = false from h)
    | symlink tgt =>
      unfold existsFs at h
      rw [hl] at h
      have h2 : statPlain fs tgt = false := h
      rw [hsyml tgt hl] at h2
      exact Bool.noConfusion h2

/-- One live (non-dry) step of the sync loop for one (target, skill) pair on
a well-formed state: the action is exactly the decided one, no error occurs,
the destination ends up existing, and nothing outside the destination subtree
and the missing ancestors of the skills directory changes. -/
lemma syncSkill_live (ds : Strategy) (env : Env) (t : Target) (sk : Skill)
    (f : Bool) (sc : Option Scope) (fs : Fs) (dd : Path)
    (hres : getSkillsPath env t sk.scope = .ok dd)
    (hwf : WfKeys fs)
    (hcan : lookupFs fs sk.path = some .dir)
    (hne : (dd ++ [sk.name]).isPrefixOf sk.path = false)
    (hsyml : ∀ tgt, lookupFs fs (dd ++ [sk.name]) = some (.symlink tgt) →
        statPlain fs tgt = true) :
    ∃ fs1,
      syncSkill ds env t sk (isInstalledInScope env t fs sk.name sk.scope)
          ⟨false, f, sc⟩ fs =
        ({ skillName := sk.name, target := t.name,
           action :=
             if isInstalledInScope env t fs sk.name sk.scope && !f then .skip
             else if isInstalledInScope env t fs sk.name sk.scope then .update
             else .install,
           error := none }, fs1) ∧
      WfKeys fs1 ∧
      (∀ x v, lookupFs fs x = some v → (dd ++ [sk.name]).isPrefixOf x = false →
        lookupFs fs1 x = some v) ∧
      (∀ x, (dd ++ [sk.name]).isPrefixOf x = false → x.isPrefixOf dd = false →
        lookupFs fs1 x = lookupFs fs x) ∧
      ((fs1 = fs ∧ existsFs fs (dd ++ [sk.name]) = true) ∨
        (lookupFs fs1 (dd ++ [sk.name]) = some (.symlink sk.path) ∨
          lookupFs fs1 (dd ++ [sk.name]) = some .dir)) := by
  have hinst := isInstalledInScope_eq env t fs sk.name sk.scope dd hres
  cases hex : existsFs fs (dd ++ [sk.name]) with
  | true =>
    cases hf : f with
    | false =>
      refine ⟨fs, ?_, hwf, fun x v hx _ => hx, fun x _ _ => rfl, Or.inl ⟨rfl, rfl⟩⟩
      unfold syncSkill
      rw [hinst, hex]
      simp
    | true =>
      -- update: force-install onto the occupied destination
      obtain ⟨fs1, hrun, hshape, hwf1, hpres1, hframe1⟩ :=
        installAt_ok sk (if ds = "" then StrategySymlink else ds) dd
          (removeAllFs fs (dd ++ [sk.name]))
          (wfKeys_removeAll fs _ hwf)
          (by rw [lookupFs_removeAll, if_neg (by rw [hne]; exact Bool.noConfusion)]
              exact hcan)
          (by rw [lookupFs_removeAll, if_pos (isPrefixOf_refl _)])
          hne
      refine ⟨fs1, ?_, hwf1, ?_, ?_, Or.inr hshape⟩
      · rw [hinst, hex]
        simp [syncSkill, installSkill, hres, hex, hrun]
      · intro x v hx hpre
        refine hpres1 x v ?_ hpre
        rw [lookupFs_removeAll, if_neg (by rw [hpre]; exact Bool.noConfusion)]
        exact hx
      · intro x h1 h2
        rw [hframe1 x h1 h2, lookupFs_removeAll, if_neg (by rw [h1]; exact Bool.noConfusion)]
  | false =>
    have hnone : lookupFs fs (dd ++ [sk.name]) = none :=
      lookup_none_of_not_exists hsyml hex
    obtain ⟨fs1, hrun, hshape, hwf1, hpres1, hframe1⟩ :=
      installAt_ok sk (if ds = "" then StrategySymlink else ds) dd fs hwf hcan hnone hne
    refine ⟨fs1, ?_, hwf1, hpres1, hframe1, Or.inr hshape⟩
    rw [hinst, hex]
    simp [syncSkill, installSkill, hres, hex, hrun]

instance {ε α : Type} [DecidableEq ε] [DecidableEq α] : DecidableEq (Except ε α) :=
  fun x y =>
    match x, y with
    | .ok a, .ok b =>
      if h : a = b then isTrue (by rw [h]) else
        isFalse (fun hc => by cases hc; exact h rfl)
    | .error a, .error b =>
      if h : a = b then isTrue (by rw [h]) else
        isFalse (fun hc => by cases hc; exact h rfl)
    | .ok _, .error _ => isFalse (fun hc => by cases hc)
    | .error _, .ok _ => isFalse (fun hc => by cases hc)

/-- The skills directory a (target, skill) pair resolves to (meaningful when
`getSkillsPath` succeeds). -/
def destDirD (env : Env) (t : Target) (sk : Skill) : Path :=
  match getSkillsPath env t sk.scope with
  | .ok d => d
  | .error _ => []

/-- The installation destination of a (target, skill) pair. -/
def destOf (env : Env) (t : Target) (sk : Skill) : Path :=
  destDirD env t sk ++ [sk.name]

/-- Any symlink found at an installation destination points at the
canonical directory of one of the resolved skills. -/
def symlinkTargetOk (S : List Skill) (o : Option FsNode) : Prop :=
  match o with
  | some (.symlink tgt) => ∃ sk ∈ S, tgt = sk.path
  | _ => True

instance (S : List Skill) : (o : Option FsNode) → Decidable (symlinkTargetOk S o)
  | some (.symlink tgt) => inferInstanceAs (Decidable (∃ sk ∈ S, tgt = sk.path))
  | some (.file _) => isTrue trivial
  | some .dir => isTrue trivial
  | none => isTrue trivial

/-- A well-formed sync configuration: every pair's scope path resolves, the
canonical skill directories exist, the destinations are pairwise unrelated
and unrelated to the skills directories and canonical paths, and any
already-installed symlink points at a canonical skill directory.  These are
exactly the properties guaranteed for states reachable by the tool (resolved
skill lists have unique names and live under the store root, targets under
their own roots). -/
def PairsReady (env : Env) (S : List Skill) (P : List (Target × Skill)) (fs : Fs) : Prop :=
  WfKeys fs ∧
  (∀ p ∈ P, getSkillsPath env p.1 p.2.scope = .ok (destDirD env p.1 p.2)) ∧
  (∀ p ∈ P, p.2 ∈ S) ∧
  (∀ sk ∈ S, lookupFs fs sk.path = some .dir) ∧
  (∀ p ∈ P, ∀ q ∈ P, p ≠ q →
      (destOf env p.1 p.2).isPrefixOf (destOf env q.1 q.2) = false) ∧
  (∀ p ∈ P, ∀ q ∈ P, (destOf env p.1 p.2).isPrefixOf (destDirD env q.1 q.2) = false) ∧
  (∀ p ∈ P, ∀ sk ∈ S, (destOf env p.1 p.2).isPrefixOf sk.path = false) ∧
  (∀ p ∈ P, symlinkTargetOk S (lookupFs fs (destOf env p.1 p.2))) ∧
  P.Nodup

instance (fs : Fs) : Decidable (WfKeys fs) := by
  unfold WfKeys
  infer_instance

instance (env : Env) (S : List Skill) (P : List (Target × Skill)) (fs : Fs) :
    Decidable (PairsReady env S P fs) := by
  unfold PairsReady
  infer_instance

lemma existsFs_stable {fs fs1 : Fs} {p : Path}
    (hlook : lookupFs fs1 p = lookupFs fs p)
    (hstat : ∀ tgt, lookupFs fs p = some (.symlink tgt) →
      statPlain fs tgt = true ∧ statPlain fs1 tgt = true) :
    existsFs fs1 p = existsFs fs p := by
  unfold existsFs
  rw [hlook]
  cases hl : lookupFs fs p with
  | none => rfl
  | some v =>
    cases v with
    | file c => rfl
    | dir => rfl
    | symlink tgt =>
      obtain ⟨h1, h2⟩ := hstat tgt hl
      show statPlain fs1 tgt = statPlain fs tgt
      rw [h1, h2]

/-- The per-pair decision the engine takes, as a function of the state. -/
def decidedResult (env : Env) (f : Bool) (p : Target × Skill) (fs : Fs) : SyncResult :=
  { skillName := p.2.name, target := p.1.name,
    action :=
      if isInstalledInScope env p.1 fs p.2.name p.2.scope && !f then .skip
      else if isInstalledInScope env p.1 fs p.2.name p.2.scope then .update
      else .install,
    error := none }

lemma syncSkill_dry (ds : Strategy) (env : Env) (t : Target) (sk : Skill)
    (b f : Bool) (sc : Option Scope) (fs : Fs) :
    syncSkill ds env t sk b ⟨true, f, sc⟩ fs =
      ({ skillName := sk.name, target := t.name,
         action := if b && !f then .skip else if b then .update else .install,
         error := none }, fs) := by
  unfold syncSkill
  by_cases hb : (b && !f) = true
  · simp [hb]
  · simp only [Bool.not_eq_true] at hb
    simp [hb]

lemma runPairs_dry (ds : Strategy) (env : Env) (f : Bool) (sc : Option Scope) :
    ∀ (P : List (Target × Skill)) (fs : Fs),
      runPairs ds env P ⟨true, f, sc⟩ fs =
        (P.map (fun p => decidedResult env f p fs), fs) := by
  intro P
  induction P with
  | nil => intro fs; rfl
  | cons p rest ih =>
    intro fs
    simp only [runPairs, syncSkill_dry, ih, List.map_cons]
    rfl

/-- A live run on a ready configuration performs exactly the decided actions
of the initial state, with no errors. -/
lemma runPairs_live_decided (ds : Strategy) (env : Env) (S : List Skill)
    (f : Bool) (sc : Option Scope) :
    ∀ (P : List (Target × Skill)) (fs : Fs), PairsReady env S P fs →
      (runPairs ds env P ⟨false, f, sc⟩ fs).1 =
        P.map (fun p => decidedResult env f p fs) := by
  intro P
  induction P with
  | nil => intro fs _; rfl
  | cons p0 rest ih =>
    intro fs hready
    obtain ⟨hwf, h2, h3, h4, h5, h6, h7, h8, h9⟩ := hready
    have hp0 : p0 ∈ p0 :: rest := by simp
    have hres := h2 p0 hp0
    have hcan : lookupFs fs p0.2.path = some .dir := h4 p0.2 (h3 p0 hp0)
    have hne : (destDirD env p0.1 p0.2 ++ [p0.2.name]).isPrefixOf p0.2.path = false :=
      h7 p0 hp0 p0.2 (h3 p0 hp0)
    have hsyml : ∀ tgt,
        lookupFs fs (destDirD env p0.1 p0.2 ++ [p0.2.name]) = some (.symlink tgt) →
        statPlain fs tgt = true := by
      intro tgt hl
      have h8a : symlinkTargetOk S
          (lookupFs fs (destDirD env p0.1 p0.2 ++ [p0.2.name])) := h8 p0 hp0
      rw [hl] at h8a
      have h8b : ∃ sk ∈ S, tgt = sk.path := h8a
      obtain ⟨sk, hskS, rfl⟩ := h8b
      show statPlain fs sk.path = true
      unfold statPlain
      rw [h4 sk hskS]
    obtain ⟨fs1, hstep, hwf1, hpres1, hframe1, hE⟩ :=
      syncSkill_live ds env p0.1 p0.2 f sc fs (destDirD env p0.1 p0.2)
        hres hwf hcan hne hsyml
    have hnotin : p0 ∉ rest := (List.nodup_cons.mp h9).1
    -- decisions of the remaining pairs are unchanged by this step
    have hstable : ∀ q ∈ rest,
        isInstalledInScope env q.1 fs1 q.2.name q.2.scope =
          isInstalledInScope env q.1 fs q.2.name q.2.scope := by
      intro q hq
      have hqP : q ∈ p0 :: rest := by simp [hq]
      have hresq := h2 q hqP
      rw [isInstalledInScope_eq env q.1 fs1 q.2.name q.2.scope _ hresq,
        isInstalledInScope_eq env q.1 fs q.2.name q.2.scope _ hresq]
      have hpq : p0 ≠ q := fun hc => hnotin (hc ▸ hq)
      have hlook : lookupFs fs1 (destOf env q.1 q.2) = lookupFs fs (destOf env q.1 q.2) :=
        hframe1 (destOf env q.1 q.2) (h5 p0 hp0 q hqP hpq) (h6 q hqP p0 hp0)
      exact existsFs_stable hlook (by
        intro tgt hl
        have h8a : symlinkTargetOk S
            (lookupFs fs (destDirD env q.1 q.2 ++ [q.2.name])) := h8 q hqP
        rw [hl] at h8a
        have h8b : ∃ sk ∈ S, tgt = sk.path := h8a
        obtain ⟨sk, hskS, rfl⟩ := h8b
        constructor
        · show statPlain fs sk.path = true
          unfold statPlain
          rw [h4 sk hskS]
        · show statPlain fs1 sk.path = true
          unfold statPlain
          rw [hpres1 sk.path .dir (h4 sk hskS) (h7 p0 hp0 sk hskS)])
    have hreadyRest : PairsReady env S rest fs1 := by
      refine ⟨hwf1, ?_, ?_, ?_, ?_, ?_, ?_, ?_, (List.nodup_cons.mp h9).2⟩
      · intro q hq; exact h2 q (by simp [hq])
      · intro q hq; exact h3 q (by simp [hq])
      · intro sk hsk
        exact hpres1 sk.path .dir (h4 sk hsk) (h7 p0 hp0 sk hsk)
      · intro q hq r hr hne'
        exact h5 q (by simp [hq]) r (by simp [hr]) hne'
      · intro q hq r hr
        exact h6 q (by simp [hq]) r (by simp [hr])
      · intro q hq sk hsk
        exact h7 q (by simp [hq]) sk hsk
      · intro q hq
        have hqP : q ∈ p0 :: rest := by simp [hq]
        have hpq : p0 ≠ q := fun hc => hnotin (hc ▸ hq)
        have hlook : lookupFs fs1 (destOf env q.1 q.2) =
            lookupFs fs (destOf env q.1 q.2) :=
          hframe1 (destOf env q.1 q.2) (h5 p0 hp0 q hqP hpq) (h6 q hqP p0 hp0)
        rw [hlook]
        exact h8 q hqP
    simp only [runPairs]
    rw [hstep]
    simp only [List.map_cons]
    rw [ih fs1 hreadyRest]
    have htail : List.map (fun p => decidedResult env f p fs1) rest =
        List.map (fun p => decidedResult env f p fs) rest :=
      List.map_congr_left (fun q hq => by unfold decidedResult; rw [hstable q hq])
    rw [htail]
    rfl

/-- C9: Sync with DryRun leaves the filesystem untouched and reports exactly
the per-(skill, target) actions a live run computes on the same state. -/
theorem sync_dryRun_frame (ds : Strategy) (env : Env) (targets : List Target)
    (skills : List Skill) (f : Bool) (sc : Option Scope) (fs : Fs)
    (h : PairsReady env skills (pairsOf targets skills) fs) :
    (syncLoop ds env targets skills ⟨true, f, sc⟩ fs).2 = fs ∧
    (syncLoop ds env targets skills ⟨true, f, sc⟩ fs).1 =
      (syncLoop ds env targets skills ⟨false, f, sc⟩ fs).1 := by
  rw [syncLoop_eq_runPairs, syncLoop_eq_runPairs,
    runPairs_dry ds env f sc (pairsOf targets skills) fs]
  exact ⟨rfl, (runPairs_live_decided ds env skills f sc _ fs h).symm⟩

def fsC9W : Fs :=
  [(["h", ".agents", "skills", "demo"], .dir),
   (["h", ".claude", "skills", "demo"], .symlink ["h", ".agents", "skills", "demo"])]

theorem sync_dryRun_frame_witness :
    (syncLoop "" envW [claudeW, codexW] [skDemoW] ⟨true, false, none⟩ fsC9W).2 = fsC9W ∧
    (syncLoop "" envW [claudeW, codexW] [skDemoW] ⟨true, false, none⟩ fsC9W).1 =
      (syncLoop "" envW [claudeW, codexW] [skDemoW] ⟨false, false, none⟩ fsC9W).1 :=
  sync_dryRun_frame "" envW [claudeW, codexW] [skDemoW] false none fsC9W (by decide)

/-- The successful-install result row for a pair. -/
def installResult (p : Target × Skill) : SyncResult :=
  ⟨p.2.name, p.1.name, .install, none⟩

/-- The skip result row for a pair. -/
def skipResult (p : Target × Skill) : SyncResult :=
  ⟨p.2.name, p.1.name, .skip, none⟩

/-- A live no-force run from a state where no destination is occupied
installs every pair, producing link-or-directory entries at every
destination and touching nothing else. -/
lemma runPairs_fresh (ds : Strategy) (env : Env) (S : List Skill) (sc : Option Scope) :
    ∀ (P : List (Target × Skill)) (fs : Fs), PairsReady env S P fs →
      (∀ p ∈ P, lookupFs fs (destOf env p.1 p.2) = none) →
      ∃ fs1, runPairs ds env P ⟨false, false, sc⟩ fs =
          (P.map installResult, fs1) ∧
        WfKeys fs1 ∧
        (∀ sk ∈ S, lookupFs fs1 sk.path = some .dir) ∧
        (∀ p ∈ P, lookupFs fs1 (destOf env p.1 p.2) = some (.symlink p.2.path) ∨
          lookupFs fs1 (destOf env p.1 p.2) = some .dir) ∧
        (∀ x, (∀ p ∈ P, (destOf env p.1 p.2).isPrefixOf x = false) →
              (∀ p ∈ P, x.isPrefixOf (destDirD env p.1 p.2) = false) →
              lookupFs fs1 x = lookupFs fs x) := by
  intro P
  induction P with
  | nil =>
    intro fs hready _
    exact ⟨fs, rfl, hready.1, hready.2.2.2.1, by simp, fun x _ _ => rfl⟩
  | cons p0 rest ih =>
    intro fs hready habsent
    obtain ⟨hwf, h2, h3, h4, h5, h6, h7, h8, h9⟩ := hready
    have hp0 : p0 ∈ p0 :: rest := by simp
    have hres := h2 p0 hp0
    have hcan : lookupFs fs p0.2.path = some .dir := h4 p0.2 (h3 p0 hp0)
    have hne : (destDirD env p0.1 p0.2 ++ [p0.2.name]).isPrefixOf p0.2.path = false :=
      h7 p0 hp0 p0.2 (h3 p0 hp0)
    have habs0 : lookupFs fs (destDirD env p0.1 p0.2 ++ [p0.2.name]) = none :=
      habsent p0 hp0
    have hsyml : ∀ tgt,
        lookupFs fs (destDirD env p0.1 p0.2 ++ [p0.2.name]) = some (.symlink tgt) →
        statPlain fs tgt = true := by
      intro tgt hl
      rw [habs0] at hl
      exact Option.noConfusion hl
    obtain ⟨fs1, hstep, hwf1, hpres1, hframe1, hE⟩ :=
      syncSkill_live ds env p0.1 p0.2 false sc fs (destDirD env p0.1 p0.2)
        hres hwf hcan hne hsyml
    have hex0 : existsFs fs (destDirD env p0.1 p0.2 ++ [p0.2.name]) = false :=
      existsFs_none habs0
    have hinst0 : isInstalledInScope env p0.1 fs p0.2.name p0.2.scope = false := by
      rw [isInstalledInScope_eq env p0.1 fs p0.2.name p0.2.scope _ hres]
      exact hex0
    have hshape0 : lookupFs fs1 (destOf env p0.1 p0.2) = some (.symlink p0.2.path) ∨
        lookupFs fs1 (destOf env p0.1 p0.2) = some .dir := by
      rcases hE with ⟨_, hL⟩ | hR
      · rw [hL] at hex0
        exact Bool.noConfusion hex0
      · exact hR
    have hnotin : p0 ∉ rest := (List.nodup_cons.mp h9).1
    have hreadyRest : PairsReady env S rest fs1 := by
      refine ⟨hwf1, ?_, ?_, ?_, ?_, ?_, ?_, ?_, (List.nodup_cons.mp h9).2⟩
      · intro q hq; exact h2 q (by simp [hq])
      · intro q hq; exact h3 q (by simp [hq])
      · intro sk hsk
        exact hpres1 sk.path .dir (h4 sk hsk) (h7 p0 hp0 sk hsk)
      · intro q hq r hr hne'
        exact h5 q (by simp [hq]) r (by simp [hr]) hne'
      · intro q hq r hr
        exact h6 q (by simp [hq]) r (by simp [hr])
      · intro q hq sk hsk
        exact h7 q (by simp [hq]) sk hsk
      · intro q hq
        have hqP : q ∈ p0 :: rest := by simp [hq]
        have hpq : p0 ≠ q := fun hc => hnotin (hc ▸ hq)
        have hlook : lookupFs fs1 (destOf env q.1 q.2) =
            lookupFs fs (destOf env q.1 q.2) :=
          hframe1 (destOf env q.1 q.2) (h5 p0 hp0 q hqP hpq) (h6 q hqP p0 hp0)
        rw [hlook]
        exact h8 q hqP
    have habsRest : ∀ q ∈ rest, lookupFs fs1 (destOf env q.1 q.2) = none := by
      intro q hq
      have hqP : q ∈ p0 :: rest := by simp [hq]
      have hpq : p0 ≠ q := fun hc => hnotin (hc ▸ hq)
      rw [hframe1 (destOf env q.1 q.2) (h5 p0 hp0 q hqP hpq) (h6 q hqP p0 hp0)]
      exact habsent q hqP
    obtain ⟨fs2, hrun2, hwf2, hcan2, hshape2, hframe2⟩ := ih fs1 hreadyRest habsRest
    refine ⟨fs2, ?_, hwf2, hcan2, ?_, ?_⟩
    · simp only [runPairs]
      rw [hstep, hrun2]
      simp only [List.map_cons]
      rw [hinst0]
      rfl
    · intro q hq
      rcases List.mem_cons.mp hq with hq0 | hqr
      · subst hq0
        have hkeep : lookupFs fs2 (destOf env q.1 q.2) =
            lookupFs fs1 (destOf env q.1 q.2) := by
          apply hframe2
          · intro r hr
            have hrP : r ∈ q :: rest := by simp [hr]
            have hrq : r ≠ q := fun hc => hnotin (by rw [← hc]; exact hr)
            exact h5 r hrP q hp0 hrq
          · intro r hr
            exact h6 q hp0 r (by simp [hr])
        rw [hkeep]
        exact hshape0
      · exact hshape2 q hqr
    · intro x hx1 hx2
      have hfs2 : lookupFs fs2 x = lookupFs fs1 x := by
        apply hframe2
        · intro r hr; exact hx1 r (by simp [hr])
        · intro r hr; exact hx2 r (by simp [hr])
      rw [hfs2]
      exact hframe1 x (hx1 p0 hp0) (hx2 p0 hp0)

/-- When every pair is already installed and force is off, the whole run is
skips and the state is untouched. -/
lemma runPairs_all_skip (ds : Strategy) (env : Env) (sc : Option Scope) :
    ∀ (P : List (Target × Skill)) (fs : Fs),
      (∀ p ∈ P, isInstalledInScope env p.1 fs p.2.name p.2.scope = true) →
      runPairs ds env P ⟨false, false, sc⟩ fs = (P.map skipResult, fs) := by
  intro P
  induction P with
  | nil => intro fs _; rfl
  | cons p0 rest ih =>
    intro fs hinst
    have h0 := hinst p0 (by simp)
    have hstep : syncSkill ds env p0.1 p0.2
        (isInstalledInScope env p0.1 fs p0.2.name p0.2.scope) ⟨false, false, sc⟩ fs =
        (skipResult p0, fs) := by
      rw [h0]
      unfold syncSkill skipResult
      simp
    simp only [runPairs]
    rw [hstep, ih fs (fun q hq => hinst q (by simp [hq]))]
    rfl

/-- C5: from a state where no (skill, target) pair is installed, a no-force
Sync installs every pair, and running Sync again immediately afterwards
yields Skip for every pair and does not change the filesystem further. -/
theorem sync_twice_idempotent (ds : Strategy) (env : Env) (targets : List Target)
    (skills : List Skill) (sc : Option Scope) (fs : Fs)
    (hready : PairsReady env skills (pairsOf targets skills) fs)
    (habsent : ∀ p ∈ pairsOf targets skills,
      lookupFs fs (destOf env p.1 p.2) = none) :
    (syncLoop ds env targets skills ⟨false, false, sc⟩ fs).1 =
      (pairsOf targets skills).map installResult ∧
    syncLoop ds env targets skills ⟨false, false, sc⟩
        (syncLoop ds env targets skills ⟨false, false, sc⟩ fs).2 =
      ((pairsOf targets skills).map skipResult,
       (syncLoop ds env targets skills ⟨false, false, sc⟩ fs).2) := by
  obtain ⟨hwf, h2, h3, h4, h5, h6, h7, h8, h9⟩ := hready
  obtain ⟨fs1, hrun, hwf1, hcan1, hshape1, hframe1⟩ :=
    runPairs_fresh ds env skills sc (pairsOf targets skills) fs
      ⟨hwf, h2, h3, h4, h5, h6, h7, h8, h9⟩ habsent
  rw [syncLoop_eq_runPairs, hrun]
  refine ⟨rfl, ?_⟩
  rw [syncLoop_eq_runPairs]
  have hinstAll : ∀ p ∈ pairsOf targets skills,
      isInstalledInScope env p.1 fs1 p.2.name p.2.scope = true := by
    intro p hp
    rw [isInstalledInScope_eq env p.1 fs1 p.2.name p.2.scope _ (h2 p hp)]
    rcases hshape1 p hp with hsym | hdir
    · have hsym' : lookupFs fs1 (destDirD env p.1 p.2 ++ [p.2.name]) =
          some (.symlink p.2.path) := hsym
      unfold existsFs
      rw [hsym']
      show statPlain fs1 p.2.path = true
      unfold statPlain
      rw [hcan1 p.2 (h3 p hp)]
    · have hdir' : lookupFs fs1 (destDirD env p.1 p.2 ++ [p.2.name]) =
          some FsNode.dir := hdir
      unfold existsFs
      rw [hdir']
  rw [runPairs_all_skip ds env sc (pairsOf targets skills) fs1 hinstAll]

def fsC5W : Fs := [(["h", ".agents", "skills", "demo"], .dir)]

theorem sync_twice_idempotent_witness :
    (syncLoop "" envW [claudeW, codexW] [skDemoW] ⟨false, false, none⟩ fsC5W).1 =
      (pairsOf [claudeW, codexW] [skDemoW]).map installResult ∧
    syncLoop "" envW [claudeW, codexW] [skDemoW] ⟨false, false, none⟩
        (syncLoop "" envW [claudeW, codexW] [skDemoW] ⟨false, false, none⟩ fsC5W).2 =
      ((pairsOf [claudeW, codexW] [skDemoW]).map skipResult,
       (syncLoop "" envW [claudeW, codexW] [skDemoW] ⟨false, false, none⟩ fsC5W).2) :=
  sync_twice_idempotent "" envW [claudeW, codexW] [skDemoW] none fsC5W
    (by decide) (by decide)

/-! ## Status reporter (internal/usecase/status.go, GetStatus; the InSync
computation also appears as NewStatus in the service layer) -/

structure StatusResult where
  target : String
  installed : List String
  missing : List String
  extra : List String
  inSync : Bool
  error : Option Err
deriving DecidableEq, Repr

/-- The per-target body of StatusService.GetStatus: on a ListInstalled
failure produce a result carrying only the error (InSync stays at its false
zero value); otherwise classify every resolved skill as installed (in its
own scope) or missing, collect installed names outside the resolved name set
as extra, and set InSync iff nothing is missing and nothing is extra. -/
def getStatusForTarget (env : Env) (skills : List Skill) (t : Target) (fs : Fs) :
    StatusResult :=
  match listInstalled env t fs with
  | .error e =>
    { target := t.name, installed := [], missing := [], extra := [],
      inSync := false, error := some e }
  | .ok installed =>
    let installedList :=
      (skills.filter (fun sk => isInstalledInScope env t fs sk.name sk.scope)).map
        Skill.name
    let missingList :=
      (skills.filter (fun sk => !(isInstalledInScope env t fs sk.name sk.scope))).map
        Skill.name
    let extraList := installed.filter (fun n => !(skills.any (fun sk => sk.name == n)))
    { target := t.name, installed := installedList, missing := missingList,
      extra := extraList,
      inSync := missingList.isEmpty && extraList.isEmpty, error := none }

/-- StatusService.GetStatus minus loading/filtering: one status per target. -/
def getStatus (env : Env) (skills : List Skill) (targets : List Target) (fs : Fs) :
    List StatusResult :=
  targets.map (fun t => getStatusForTarget env skills t fs)

/-- service.NewStatus: InSync is computed from the parameters as "no missing,
no extra, no error". -/
def NewStatus (target : String) (installed missing extra : List String)
    (error : Option Err) : StatusResult :=
  { target := target, installed := installed, missing := missing, extra := extra,
    error := error,
    inSync := missing.isEmpty && extra.isEmpty && error.isNone }

/-- C4: per target, status classification is exhaustive and exclusive over
the resolved names, extra names are exactly the installed names outside the
resolved set, and InSync holds iff nothing is missing, nothing is extra and
no error occurred; `NewStatus` computes the same InSync condition from its
parameters. -/
theorem getStatus_classification (env : Env) (skills : List Skill)
    (targets : List Target) (fs : Fs)
    (hnodup : (skills.map Skill.name).Nodup) :
    getStatus env skills targets fs =
      targets.map (fun t => getStatusForTarget env skills t fs) ∧
    (∀ tg ins mis ex er, (NewStatus tg ins mis ex er).inSync = true ↔
      (mis = [] ∧ ex = [] ∧ er = none)) ∧
    ∀ t ∈ targets,
      ((getStatusForTarget env skills t fs).inSync = true ↔
        ((getStatusForTarget env skills t fs).missing = [] ∧
         (getStatusForTarget env skills t fs).extra = [] ∧
         (getStatusForTarget env skills t fs).error = none)) ∧
      (∀ ins, listInstalled env t fs = .ok ins →
        (getStatusForTarget env skills t fs).error = none ∧
        (∀ sk ∈ skills,
          (sk.name ∈ (getStatusForTarget env skills t fs).installed ∧
            sk.name ∉ (getStatusForTarget env skills t fs).missing) ∨
          (sk.name ∉ (getStatusForTarget env skills t fs).installed ∧
            sk.name ∈ (getStatusForTarget env skills t fs).missing)) ∧
        (∀ sk ∈ skills, sk.name ∈ (getStatusForTarget env skills t fs).installed ↔
          isInstalledInScope env t fs sk.name sk.scope = true) ∧
        (∀ n, n ∈ (getStatusForTarget env skills t fs).extra ↔
          (n ∈ ins ∧ n ∉ skills.map Skill.name))) := by
  refine ⟨rfl, ?_, ?_⟩
  · intro tg ins mis ex er
    unfold NewStatus
    simp only [Bool.and_eq_true, List.isEmpty_iff, Option.isNone_iff_eq_none, and_assoc]
  intro t _
  have hinj : ∀ a ∈ skills, ∀ b ∈ skills, a.name = b.name → a = b :=
    fun a ha b hb hab => List.inj_on_of_nodup_map hnodup ha hb hab
  cases hli : listInstalled env t fs with
  | error e =>
    constructor
    · unfold getStatusForTarget
      rw [hli]
      simp
    · intro ins hins
      exact Except.noConfusion hins
  | ok installed =>
    have hr : getStatusForTarget env skills t fs =
        { target := t.name,
          installed :=
            (skills.filter (fun sk =>
              isInstalledInScope env t fs sk.name sk.scope)).map Skill.name,
          missing :=
            (skills.filter (fun sk =>
              !(isInstalledInScope env t fs sk.name sk.scope))).map Skill.name,
          extra := installed.filter (fun n => !(skills.any (fun sk => sk.name == n))),
          inSync :=
            ((skills.filter (fun sk =>
              !(isInstalledInScope env t fs sk.name sk.scope))).map Skill.name).isEmpty
            && (installed.filter (fun n =>
              !(skills.any (fun sk => sk.name == n)))).isEmpty,
          error := none } := by
      unfold getStatusForTarget
      rw [hli]
    rw [hr]
    constructor
    · simp only [Bool.and_eq_true, List.isEmpty_iff, and_assoc, and_true]
    · intro ins hins
      have hinseq : installed = ins := by
        cases hins
        rfl
      subst hinseq
      refine ⟨rfl, ?_, ?_, ?_⟩
      · intro sk hsk
        by_cases hp : isInstalledInScope env t fs sk.name sk.scope = true
        · left
          constructor
          · exact List.mem_map.mpr ⟨sk, List.mem_filter.mpr ⟨hsk, by rw [hp]⟩, rfl⟩
          · intro hc
            obtain ⟨sk2, hsk2, hname2⟩ := List.mem_map.mp hc
            obtain ⟨hsk2s, hsk2p⟩ := List.mem_filter.mp hsk2
            have : sk2 = sk := hinj sk2 hsk2s sk hsk hname2
            subst this
            rw [hp] at hsk2p
            simp at hsk2p
        · right
          simp only [Bool.not_eq_true] at hp
          constructor
          · intro hc
            obtain ⟨sk2, hsk2, hname2⟩ := List.mem_map.mp hc
            obtain ⟨hsk2s, hsk2p⟩ := List.mem_filter.mp hsk2
            have : sk2 = sk := hinj sk2 hsk2s sk hsk hname2
            subst this
            rw [hp] at hsk2p
            exact Bool.noConfusion hsk2p
          · exact List.mem_map.mpr ⟨sk, List.mem_filter.mpr ⟨hsk, by rw [hp]; rfl⟩, rfl⟩
      · intro sk hsk
        constructor
        · intro hc
          obtain ⟨sk2, hsk2, hname2⟩ := List.mem_map.mp hc
          obtain ⟨hsk2s, hsk2p⟩ := List.mem_filter.mp hsk2
          have : sk2 = sk := hinj sk2 hsk2s sk hsk hname2
          subst this
          exact hsk2p
        · intro hp
          exact List.mem_map.mpr ⟨sk, List.mem_filter.mpr ⟨hsk, hp⟩, rfl⟩
      · intro n
        simp only [List.mem_filter, Bool.not_eq_true']
        constructor
        · rintro ⟨hn, hany⟩
          refine ⟨hn, ?_⟩
          intro hc
          obtain ⟨sk, hsk, hname⟩ := List.mem_map.mp hc
          have : skills.any (fun sk => sk.name == n) = true :=
            List.any_eq_true.mpr ⟨sk, hsk, by simp [hname]⟩
          rw [this] at hany
          exact Bool.noConfusion hany
        · rintro ⟨hn, hnm⟩
          refine ⟨hn, ?_⟩
          cases hany : skills.any (fun sk => sk.name == n) with
          | false => rfl
          | true =>
            obtain ⟨sk, hsk, hname⟩ := List.any_eq_true.mp hany
            exact absurd (List.mem_map.mpr ⟨sk, hsk, by simpa using hname⟩) hnm

/-- Witness for C4 at a concrete environment, skill list, target and
filesystem. -/
theorem getStatus_classification_witness :
    ((getStatusForTarget envW [skDemoW] claudeW fsInstallW).inSync = true ↔
      ((getStatusForTarget envW [skDemoW] claudeW fsInstallW).missing = [] ∧
       (getStatusForTarget envW [skDemoW] claudeW fsInstallW).extra = [] ∧
       (getStatusForTarget envW [skDemoW] claudeW fsInstallW).error = none)) :=
  (((getStatus_classification envW [skDemoW] [claudeW] fsInstallW
      (by decide)).2.2) claudeW (List.mem_singleton.mpr rfl)).1

/-! ## Skill loading and the Store (internal/skill/store.go; the loader also
appears as skill.Loader in the middle generation).  SKILL.md contents are
parsed line-wise: the model of `frontmatterRegex` (`(?s)^---\s*\n(.*?)\n---`)
opens on a first line that is `---` up to trailing blanks and closes on the
first later line starting with `---`, and the YAML unmarshalling of the
captured block reads `key: value` lines, exactly the shape the repository
writes and its tests exercise. -/

def splitLines (cs : List Char) : List (List Char) :=
  match cs with
  | [] => [[]]
  | c :: rest =>
    if c = '\n' then [] :: splitLines rest
    else
      match splitLines rest with
      | l :: ls => (c :: l) :: ls
      | [] => [[c]]

def isSpaceMini (c : Char) : Bool := c == ' ' || c == '\t' || c == '\r'

def isFmOpen (l : List Char) : Bool :=
  match l with
  | '-' :: '-' :: '-' :: rest => rest.all isSpaceMini
  | _ => false

def isFmClose (l : List Char) : Bool :=
  match l with
  | '-' :: '-' :: '-' :: _ => true
  | _ => false

/-- The lines captured between the opening delimiter and the first closing
delimiter; `none` when no closing delimiter follows (regex mismatch). -/
def fmBody : List (List Char) → Option (List (List Char))
  | [] => none
  | l :: rest => if isFmClose l then some [] else (fmBody rest).map (l :: ·)

/-- skillMetadata: the two YAML frontmatter fields. -/
structure SkillMetadata where
  name : String
  description : String
deriving DecidableEq, Repr

/-- The value of a `key: value` line of the captured YAML block. -/
def yamlFieldValue (key : List Char) (lines : List (List Char)) : List Char :=
  match lines.filterMap (fun l =>
    if (key ++ [':', ' ']).isPrefixOf l then some (l.drop (key.length + 2))
    else none) with
  | v :: _ => v
  | [] => []

/-- parseFrontmatter: extract the delimited YAML block and read its fields. -/
def parseFrontmatter (content : String) : Except Err SkillMetadata :=
  match splitLines content.data with
  | [] => .error .frontmatterMissing
  | first :: rest =>
    if isFmOpen first then
      match fmBody rest with
      | none => .error .frontmatterMissing
      | some lines =>
        .ok ⟨⟨yamlFieldValue "name".data lines⟩,
             ⟨yamlFieldValue "description".data lines⟩⟩
    else .error .frontmatterMissing

def isSpaceChar (c : Char) : Bool := c == ' ' || c == '\t' || c == '\n' || c == '\r'

/-- strings.TrimSpace. -/
def trimSpace (s : String) : String :=
  ⟨((s.data.dropWhile isSpaceChar).reverse.dropWhile isSpaceChar).reverse⟩

/-- findSkillFileWithDepth: Go guards `depth > 5` with depth 0 at the root,
modelled as fuel counting down from 6. -/
def findSkillFileAux (fs : Fs) : Nat → Path → Option Path
  | 0, _ => none
  | fuel + 1, dir =>
    if existsFs fs (dir ++ ["SKILL.md"]) then some (dir ++ ["SKILL.md"])
    else
      match readDirFs fs dir with
      | .error _ => none
      | .ok entries =>
        entries.findSome? (fun e =>
          if e.isDir then findSkillFileAux fs fuel (dir ++ [e.name]) else none)

def findSkillFile (fs : Fs) (dir : Path) : Option Path :=
  findSkillFileAux fs 6 dir

/-- Store.loadSkill: locate SKILL.md, read it, parse the frontmatter and
build the skill through NewSkill (which validates the directory name; the
name is the base of the directory, the description is trimmed). -/
def loadSkill (fs : Fs) (dir : Path) (scope : Scope) (category : Category) :
    Except Err Skill :=
  match findSkillFile fs dir with
  | none => .error .skillNotFound
  | some skillFile =>
    match readFileFs fs skillFile with
    | .error _ => .error .loadFailed
    | .ok content =>
      match parseFrontmatter content with
      | .error e => .error e
      | .ok meta =>
        match ValidateName (dir.getLastD "") with
        | .error e => .error (.invalidName e)
        | .ok _ =>
          .ok ⟨dir.getLastD "", trimSpace meta.description, dir, scope, category⟩

/-- Store.listSkillsInDir: names of directory or symlink entries that qualify
as skill directories; a missing directory yields the empty list. -/
def listSkillsInDir (fs : Fs) (dir : Path) : Except Err (List String) :=
  if !(existsFs fs dir) then .ok []
  else
    match readDirFs fs dir with
    | .error _ => .error .readDirFailed
    | .ok entries =>
      .ok ((entries.filter (fun e => (e.isDir || e.isSymlink) &&
        isValidSkillDir fs (dir ++ [e.name]))).map DirEntry.name)

/-- Store.loadAllInDir: default skills are the listed names except the
reserved `optional` directory, each loaded and silently skipped on a load
failure; optional skills live under `dir/optional`, whose listing failure is
swallowed. -/
def loadAllInDir (fs : Fs) (dir : Path) (scope : Scope) :
    Except Err (List Skill × List Skill) :=
  match listSkillsInDir fs dir with
  | .error e => .error e
  | .ok names =>
    let defaults := (names.filter (fun n => !(n == "optional"))).filterMap
      (fun n => (loadSkill fs (dir ++ [n]) scope CategoryDefault).toOption)
    let optDir := dir ++ ["optional"]
    match listSkillsInDir fs optDir with
    | .error _ => .ok (defaults, [])
    | .ok optNames =>
      .ok (defaults, optNames.filterMap
        (fun n => (loadSkill fs (optDir ++ [n]) scope CategoryOptional).toOption))

/-- SkillsPathResolver: scope-specific skill root directories (implemented by
the configuration). -/
structure SkillsPathResolver where
  globalSkillsDir : Fs → Except Err Path
  projectSkillsDir : Fs → Path → Path

/-- Store: resolver plus the project root captured at construction. -/
structure Store where
  paths : SkillsPathResolver
  projectRoot : Path

/-- Store.getGlobalSkills. -/
def Store.getGlobalSkills (s : Store) (fs : Fs) : Except Err (List Skill) :=
  match s.paths.globalSkillsDir fs with
  | .error e => .error e
  | .ok dir =>
    match loadAllInDir fs dir ScopeGlobal with
    | .error e => .error e
    | .ok (d, o) => .ok (d ++ o)

/-- Store.getProjectSkills: an unset project root short-circuits to an empty
list with no error. -/
def Store.getProjectSkills (s : Store) (fs : Fs) : Except Err (List Skill) :=
  if s.projectRoot = ([] : Path) then .ok []
  else
    match loadAllInDir fs (s.paths.projectSkillsDir fs s.projectRoot)
        ScopeProject with
    | .error e => .error e
    | .ok (d, o) => .ok (d ++ o)

/-- Store.GetAll: global skills then project skills. -/
def Store.getAll (s : Store) (fs : Fs) : Except Err (List Skill) :=
  match s.getGlobalSkills fs with
  | .error e => .error e
  | .ok g =>
    match s.getProjectSkills fs with
    | .error e => .error e
    | .ok p => .ok (g ++ p)

/-- Store.GetByScope. -/
def Store.getByScope (s : Store) (fs : Fs) (scope : Scope) :
    Except Err (List Skill) :=
  if scope = ScopeGlobal then s.getGlobalSkills fs
  else if scope = ScopeProject then s.getProjectSkills fs
  else .error .unknownScope

/-- Store.GetByName: validate, then keep the highest-priority skill of that
name. -/
def Store.getByName (s : Store) (fs : Fs) (name : String) : Except Err Skill :=
  match ValidateName name with
  | .error e => .error (.invalidName e)
  | .ok _ =>
    match s.getAll fs with
    | .error e => .error e
    | .ok all =>
      match all.foldl (fun (best : Option Skill) sk =>
        if sk.name == name &&
            (match best with
             | none => true
             | some b => decide (b.priority < sk.priority))
        then some sk else best) none with
      | none => .error .skillNotFound
      | some sk => .ok sk

/-- Store.FindInScope: first name match within one scope. -/
def Store.findInScope (s : Store) (fs : Fs) (name : String) (scope : Scope) :
    Except Err Skill :=
  match s.getByScope fs scope with
  | .error e => .error e
  | .ok skills =>
    match skills.find? (fun sk => sk.name == name) with
    | some sk => .ok sk
    | none => .error .skillNotFound

/-- Store.Remove: recursively delete the skill's canonical path. -/
def Store.remove (fs : Fs) (sk : Skill) : Fs := removeAllFs fs sk.path

/-- Store.GetResolved: conflict resolution over GetAll (the map-and-sort is
`resolveSkills`). -/
def Store.getResolved (s : Store) (fs : Fs) : Except Err (List Skill) :=
  match s.getAll fs with
  | .error e => .error e
  | .ok all => .ok (resolveSkills all)

/-! ## C10: project-scope queries with no project root -/

lemma loadSkill_scope {fs : Fs} {dir : Path} {scope : Scope} {cat : Category}
    {sk : Skill} (h : loadSkill fs dir scope cat = .ok sk) : sk.scope = scope := by
  unfold loadSkill at h
  split at h
  · exact Except.noConfusion h
  · split at h
    · exact Except.noConfusion h
    · split at h
      · exact Except.noConfusion h
      · split at h
        · exact Except.noConfusion h
        · cases h
          rfl

lemma toOption_ok {ε α : Type} {x : Except ε α} {a : α}
    (h : x.toOption = some a) : x = .ok a := by
  cases x with
  | ok b =>
    cases h
    rfl
  | error e => exact Option.noConfusion h

lemma loadAllInDir_scope {fs : Fs} {dir : Path} {scope : Scope}
    {d o : List Skill} (h : loadAllInDir fs dir scope = .ok (d, o)) :
    (∀ sk ∈ d, sk.scope = scope) ∧ (∀ sk ∈ o, sk.scope = scope) := by
  unfold loadAllInDir at h
  split at h
  · exact Except.noConfusion h
  · dsimp only at h
    split at h
    · cases h
      refine ⟨?_, by simp⟩
      intro sk hsk
      obtain ⟨m, _, hm⟩ := List.mem_filterMap.mp hsk
      exact loadSkill_scope (toOption_ok hm)
    · cases h
      constructor
      · intro sk hsk
        obtain ⟨m, _, hm⟩ := List.mem_filterMap.mp hsk
        exact loadSkill_scope (toOption_ok hm)
      · intro sk hsk
        obtain ⟨m, _, hm⟩ := List.mem_filterMap.mp hsk
        exact loadSkill_scope (toOption_ok hm)

lemma getGlobalSkills_scope {s : Store} {fs : Fs} {l : List Skill}
    (h : s.getGlobalSkills fs = .ok l) : ∀ sk ∈ l, sk.scope = ScopeGlobal := by
  unfold Store.getGlobalSkills at h
  split at h
  · exact Except.noConfusion h
  · split at h
    · exact Except.noConfusion h
    · cases h
      intro sk hsk
      rcases List.mem_append.mp hsk with hd | ho
      · rename_i heq
        exact (loadAllInDir_scope heq).1 sk hd
      · rename_i heq
        exact (loadAllInDir_scope heq).2 sk ho

/-- C10: with no project root, the Store's project-scope query succeeds with
an empty list, GetAll degenerates to the global skills (every returned skill
has Global scope), while the Target abstraction's GetSkillsPath(Project)
fails with ProjectRootNotSet. -/
theorem store_tolerates_missing_project_root (s : Store) (fs : Fs) (env : Env)
    (t : Target) (hs : s.projectRoot = ([] : Path))
    (he : env.projectRoot = ([] : Path)) :
    s.getByScope fs ScopeProject = .ok [] ∧
    s.getAll fs = s.getGlobalSkills fs ∧
    (∀ l, s.getAll fs = .ok l → ∀ sk ∈ l, sk.scope = ScopeGlobal) ∧
    getSkillsPath env t ScopeProject = .error .projectRootNotSet := by
  have hproj : s.getProjectSkills fs = .ok [] := by
    unfold Store.getProjectSkills
    rw [if_pos hs]
  have hall : s.getAll fs = s.getGlobalSkills fs := by
    unfold Store.getAll
    cases hg : s.getGlobalSkills fs with
    | error e => rfl
    | ok g =>
      rw [hproj]
      simp
  refine ⟨?_, hall, ?_, ?_⟩
  · unfold Store.getByScope
    rw [if_neg (by decide), if_pos rfl]
    exact hproj
  · intro l hl
    rw [hall] at hl
    exact getGlobalSkills_scope hl
  · unfold getSkillsPath
    rw [if_neg (by decide), if_pos rfl, if_pos he]

def storeC10W : Store :=
  ⟨⟨fun _ => .ok ["h", ".agents", "skills"],
    fun _ root => root ++ [".agents", "skills"]⟩, []⟩

def envC10W : Env := ⟨["h"], []⟩

/-- Witness for C10 at a concrete store, filesystem, environment and
target. -/
theorem store_tolerates_missing_project_root_witness :
    storeC10W.getByScope fsInstallW ScopeProject = .ok [] ∧
    storeC10W.getAll fsInstallW = storeC10W.getGlobalSkills fsInstallW ∧
    (∀ l, storeC10W.getAll fsInstallW = .ok l →
      ∀ sk ∈ l, sk.scope = ScopeGlobal) ∧
    getSkillsPath envC10W claudeW ScopeProject = .error .projectRootNotSet :=
  store_tolerates_missing_project_root storeC10W fsInstallW envC10W claudeW
    rfl rfl

/-! ## C1: the remove use case (internal/service/remove.go; the same
store-first ordering appears in Orchestrator.Remove) -/

structure TargetRemoveResult where
  target : String
  removed : Bool
  error : Option Err
deriving DecidableEq, Repr

structure RemoveResult where
  skillName : String
  storeRemoved : Bool
  targetResults : List TargetRemoveResult
  error : Option Err
deriving DecidableEq, Repr

/-- The per-target body of the uninstall loop in SkillService.Remove:
uninstall only when IsInstalled reports the name. -/
def removeAtTarget (env : Env) (skillName : String)
    (st : List TargetRemoveResult × Fs) (t : Target) :
    List TargetRemoveResult × Fs :=
  if isInstalled env t st.2 skillName then
    match uninstallSkill env t skillName st.2 with
    | (.ok _, f2) => (st.1 ++ [⟨t.name, true, none⟩], f2)
    | (.error e, f2) => (st.1 ++ [⟨t.name, false, some e⟩], f2)
  else (st.1 ++ [⟨t.name, false, none⟩], st.2)

/-- SkillService.Remove: validate the name, locate the skill (scoped search
or best-by-name), delete its canonical directory from the store, and only
then walk the targets uninstalling wherever IsInstalled still reports the
name. -/
def serviceRemove (env : Env) (s : Store) (targets : List Target)
    (name : String) (scopeOpt : Option Scope) (fs : Fs) : RemoveResult × Fs :=
  match ValidateName name with
  | .error e => (⟨name, false, [], some (.invalidName e)⟩, fs)
  | .ok _ =>
    match
      (match scopeOpt with
       | some sc => s.findInScope fs name sc
       | none => s.getByName fs name) with
    | .error e => (⟨name, false, [], some e⟩, fs)
    | .ok sk =>
      let fs1 := Store.remove fs sk
      let final := targets.foldl (removeAtTarget env sk.name) ([], fs1)
      (⟨sk.name, true, final.1, none⟩, final.2)

def envC1W : Env := ⟨["h"], []⟩

def storeC1W : Store :=
  ⟨⟨fun _ => .ok ["h", ".agents", "skills"],
    fun _ root => root ++ [".agents", "skills"]⟩, []⟩

def fsC1W : Fs :=
  [(["h", ".agents", "skills"], .dir),
   (["h", ".agents", "skills", "rm"], .dir),
   (["h", ".agents", "skills", "rm", "SKILL.md"],
     .file "---\ndescription: d\n---\nbody"),
   (["h", ".claude", "skills", "rm"],
     .symlink ["h", ".agents", "skills", "rm"]),
   (["h", ".codex", "skills", "rm"],
     .symlink ["h", ".agents", "skills", "rm"])]

/-- C1 counter-evaluation: with the skill installed at both targets as
symlinks, Remove deletes the canonical directory from the store first; the
subsequent IsInstalled checks follow the now-dangling links, report the
skill as not installed, and skip every uninstall, so both targets keep
dangling symlinks while the result still claims a clean store removal. -/
theorem remove_deletes_store_before_uninstall :
    (serviceRemove envC1W storeC1W [claudeW, codexW] "rm"
        (some ScopeGlobal) fsC1W).1.storeRemoved = true ∧
    (serviceRemove envC1W storeC1W [claudeW, codexW] "rm"
        (some ScopeGlobal) fsC1W).1.targetResults =
      [⟨"claude", false, none⟩, ⟨"codex", false, none⟩] ∧
    lookupFs (serviceRemove envC1W storeC1W [claudeW, codexW] "rm"
        (some ScopeGlobal) fsC1W).2 ["h", ".agents", "skills", "rm"] = none ∧
    lookupFs (serviceRemove envC1W storeC1W [claudeW, codexW] "rm"
        (some ScopeGlobal) fsC1W).2 ["h", ".claude", "skills", "rm"] =
      some (.symlink ["h", ".agents", "skills", "rm"]) ∧
    lookupFs (serviceRemove envC1W storeC1W [claudeW, codexW] "rm"
        (some ScopeGlobal) fsC1W).2 ["h", ".codex", "skills", "rm"] =
      some (.symlink ["h", ".agents", "skills", "rm"]) := by
  refine ⟨rfl, rfl, rfl, rfl, rfl⟩

/-! ## C3: Migrate (internal/usecase/migrate.go) -/

inductive MigrateAction
  | moved
  | skipped
  | removed
  | error
deriving DecidableEq, Repr

structure MigrateMoveResult where
  skillName : String
  fromTarget : String
  action : MigrateAction
deriving DecidableEq, Repr

/-- One iteration of the inner loop of moveSkillsToAgents: a name already
moved from another target has its duplicate source removed; a name whose
destination already exists is skipped (source removed); otherwise the source
directory is renamed into the agents skills directory. -/
def moveOne (skillsDir targetSkillsDir : Path) (targetName : String)
    (st : List String × List MigrateMoveResult × Fs) (skillName : String) :
    List String × List MigrateMoveResult × Fs :=
  let srcPath := targetSkillsDir ++ [skillName]
  let dstPath := skillsDir ++ [skillName]
  if st.1.contains skillName then
    (st.1, st.2.1 ++ [⟨skillName, targetName, .removed⟩],
      removeAllFs st.2.2 srcPath)
  else if existsFs st.2.2 dstPath then
    (st.1, st.2.1 ++ [⟨skillName, targetName, .skipped⟩],
      removeAllFs st.2.2 srcPath)
  else
    match renameFs st.2.2 srcPath dstPath with
    | .ok fs2 =>
      (st.1 ++ [skillName], st.2.1 ++ [⟨skillName, targetName, .moved⟩], fs2)
    | .error _ =>
      (st.1, st.2.1 ++ [⟨skillName, targetName, .error⟩], st.2.2)

/-- MigrateService.moveSkillsToAgents over an explicit iteration order of the
`existingSkills` map: unknown targets and unresolvable scope paths are
skipped; the `moved` set is threaded across targets. -/
def moveSkillsToAgents (env : Env) (targets : List Target) (agentsDir : Path)
    (existingSkills : List (String × List String)) (scope : Scope) (fs : Fs) :
    List MigrateMoveResult × Fs :=
  let skillsDir := agentsDir ++ ["skills"]
  let final := existingSkills.foldl
    (fun (st : List String × List MigrateMoveResult × Fs) pair =>
      match targets.find? (fun t => t.name == pair.1) with
      | none => st
      | some t =>
        match getSkillsPath env t scope with
        | .error _ => st
        | .ok targetSkillsDir =>
          if targetSkillsDir = ([] : Path) then st
          else pair.2.foldl (moveOne skillsDir targetSkillsDir pair.1) st)
    (([] : List String), ([] : List MigrateMoveResult), fs)
  (final.2.1, final.2.2)

/-- The configuration fields Migrate reads. -/
structure Config where
  globalPath : Path
  defaultStrategy : Strategy

/-- config.GetAgentsDir: the project agents directory when a project root is
given, else the expanded global path (default `~/.agents`). -/
def getAgentsDir (env : Env) (cfg : Config) (projectRoot : Path) : Path :=
  if projectRoot ≠ ([] : Path) then projectRoot ++ [".agents"]
  else expandPath env.home
    (if cfg.globalPath = ([] : Path) then ["~", ".agents"] else cfg.globalPath)

/-- MigrateService.Migrate: move the found skills into the agents directory,
then run a forced live Sync (store reload plus the sync loop) to link the
canonical copies back into the targets. -/
def migrate (env : Env) (cfg : Config) (s : Store) (targets : List Target)
    (existingSkills : List (String × List String)) (scope : Scope)
    (projectRoot : Path) (fs : Fs) :
    Except Err ((List MigrateMoveResult × List SyncResult) × Fs) :=
  let agentsDir := getAgentsDir env cfg projectRoot
  let mv := moveSkillsToAgents env targets agentsDir existingSkills scope fs
  match s.getResolved mv.2 with
  | .error e => .error e
  | .ok skills =>
    let sync := syncLoop cfg.defaultStrategy env targets skills
      ⟨false, true, none⟩ mv.2
    .ok ((mv.1, sync.1), sync.2)

def envC3 : Env := ⟨["h"], []⟩

def cfgC3 : Config := ⟨["~", ".agents"], "symlink"⟩

def storeC3 : Store :=
  ⟨⟨fun _ => .ok ["h", ".agents", "skills"],
    fun _ root => root ++ [".agents", "skills"]⟩, []⟩

def contentC3a : String := "---\ndescription: from claude\n---\n"

def contentC3b : String := "---\ndescription: from codex\n---\n"

/-- Two targets, each holding the same skill name as an unmanaged (plain
directory) skill under its skills path; the agents skills directory exists
and is empty. -/
def fsC3 (n : String) : Fs :=
  [(["h", ".agents", "skills"], .dir),
   (["h", ".claude", "skills"], .dir),
   (["h", ".claude", "skills"] ++ [n], .dir),
   (["h", ".claude", "skills"] ++ [n, "SKILL.md"], .file contentC3a),
   (["h", ".codex", "skills"], .dir),
   (["h", ".codex", "skills"] ++ [n], .dir),
   (["h", ".codex", "skills"] ++ [n, "SKILL.md"], .file contentC3b)]

def migC3 (ex : List (String × List String)) (n : String) :
    Except Err ((List MigrateMoveResult × List SyncResult) × Fs) :=
  migrate envC3 cfgC3 storeC3 [claudeW, codexW] ex ScopeGlobal [] (fsC3 n)

/-- C3 counterexample: the name `optional` is migratable (ListMigratable
reports it under both targets), and Migrate moves it like any other name —
but the store loader reserves `optional` as the optional-category directory
and never loads a skill of that name, so the forced re-sync installs nothing
and neither target ends up with a managed link; the claim's final conjunct
fails. -/
theorem migrate_optional_name_counterexample :
    validName "optional" = true ∧
    listMigratable envC3 claudeW (fsC3 "optional") ScopeGlobal =
      .ok ["optional"] ∧
    listMigratable envC3 codexW (fsC3 "optional") ScopeGlobal =
      .ok ["optional"] ∧
    (migC3 [("claude", ["optional"]), ("codex", ["optional"])]
        "optional").map (fun r => r.1.1) =
      .ok [⟨"optional", "claude", .moved⟩, ⟨"optional", "codex", .removed⟩] ∧
    (migC3 [("claude", ["optional"]), ("codex", ["optional"])]
        "optional").map (fun r => r.1.2) = .ok [] ∧
    (migC3 [("claude", ["optional"]), ("codex", ["optional"])]
        "optional").map (fun r =>
          lookupFs r.2 ["h", ".agents", "skills", "optional", "SKILL.md"]) =
      .ok (some (.file contentC3a)) ∧
    (migC3 [("claude", ["optional"]), ("codex", ["optional"])]
        "optional").map (fun r =>
          lookupFs r.2 ["h", ".claude", "skills", "optional"]) = .ok none ∧
    (migC3 [("claude", ["optional"]), ("codex", ["optional"])]
        "optional").map (fun r =>
          lookupFs r.2 ["h", ".codex", "skills", "optional"]) = .ok none := by
  refine ⟨rfl, rfl, rfl, rfl, rfl, rfl, rfl, rfl⟩

/-! Unfolding equations for `==` and `isPrefixOf` on lists, used to evaluate
the migrate pipeline at a symbolic skill name. -/

lemma beq_cons_cons {α : Type} [BEq α] (a b : α) (as bs : List α) :
    ((a :: as : List α) == (b :: bs)) = (a == b && (as == bs)) := rfl

lemma beq_nil_cons {α : Type} [BEq α] (b : α) (bs : List α) :
    (([] : List α) == (b :: bs)) = false := rfl

lemma beq_cons_nil {α : Type} [BEq α] (a : α) (as : List α) :
    ((a :: as : List α) == ([] : List α)) = false := rfl

lemma beq_nil_nil {α : Type} [BEq α] : (([] : List α) == ([] : List α)) = true := rfl

lemma isPrefixOf_cons_cons {α : Type} [BEq α] (a b : α) (as bs : List α) :
    (a :: as : List α).isPrefixOf (b :: bs) = (a == b && as.isPrefixOf bs) := rfl

lemma isPrefixOf_nil_any {α : Type} [BEq α] (l : List α) :
    ([] : List α).isPrefixOf l = true := by
  cases l <;> rfl

lemma isPrefixOf_cons_nil {α : Type} [BEq α] (a : α) (as : List α) :
    (a :: as : List α).isPrefixOf [] = false := rfl

/-- The filesystem after the move phase when the claude-sourced copy is
processed first. -/
def fsM1a (n : String) : Fs :=
  [(["h", ".agents", "skills"], .dir),
   (["h", ".claude", "skills"], .dir),
   (["h", ".agents", "skills"] ++ [n], .dir),
   (["h", ".agents", "skills"] ++ [n, "SKILL.md"], .file contentC3a),
   (["h", ".codex", "skills"], .dir)]

/-- The skill the store loads back after the move (claude-first order). -/
def skC3a (n : String) : Skill :=
  ⟨n, "from claude", ["h", ".agents", "skills"] ++ [n],
    ScopeGlobal, CategoryDefault⟩

lemma migrate_moveA (n : String) :
    moveSkillsToAgents envC3 [claudeW, codexW] (getAgentsDir envC3 cfgC3 [])
      [("claude", [n]), ("codex", [n])] ScopeGlobal (fsC3 n) =
    ([⟨n, "claude", .moved⟩, ⟨n, "codex", .removed⟩], fsM1a n) := by
  simp [moveSkillsToAgents, moveOne, getAgentsDir, expandPath, getSkillsPath,
    fsC3, fsM1a, envC3, cfgC3, claudeW, codexW, renameFs, removeAllFs,
    lookupFs, existsFs, statPlain, List.find?, List.contains, List.elem,
    beq_cons_cons, beq_nil_cons, beq_cons_nil, beq_nil_nil,
    isPrefixOf_cons_cons, isPrefixOf_nil_any, isPrefixOf_cons_nil,
    ScopeGlobal, ScopeProject]

instance : Inhabited FsNode := ⟨.dir⟩

lemma migrate_loadA (n : String) (hvn : ValidateName n = .ok ())
    (hne : (n == "optional") = false) :
    storeC3.getResolved (fsM1a n) = .ok [skC3a n] := by
  have hpf : parseFrontmatter contentC3a = .ok ⟨"", "from claude"⟩ := rfl
  have htr : trimSpace "from claude" = "from claude" := rfl
  have hload : loadSkill (fsM1a n) (["h", ".agents", "skills"] ++ [n])
      ScopeGlobal CategoryDefault = .ok (skC3a n) := by
    simp [loadSkill, findSkillFile, findSkillFileAux, readDirFs, readFileFs,
      isDirFs, lookupFs, existsFs, statPlain, fsM1a, skC3a, List.find?,
      beq_cons_cons, beq_nil_cons, beq_cons_nil, beq_nil_nil, hvn, hpf, htr,
      List.getLastD, DirEntry.isDir, DirEntry.isSymlink]
  have hlist : listSkillsInDir (fsM1a n) ["h", ".agents", "skills"] =
      .ok [n] := by
    simp [listSkillsInDir, readDirFs, isDirFs, lookupFs, existsFs, statPlain,
      isValidSkillDir, isValidSkillDirAux, fsM1a, List.find?, beq_cons_cons,
      beq_nil_cons, beq_cons_nil, beq_nil_nil, List.getLastD, DirEntry.isDir,
      DirEntry.isSymlink]
  have hlistOpt : listSkillsInDir (fsM1a n)
      ["h", ".agents", "skills", "optional"] = .ok [] := by
    simp [listSkillsInDir, readDirFs, isDirFs, lookupFs, existsFs, statPlain,
      fsM1a, List.find?, beq_cons_cons, beq_nil_cons, beq_cons_nil,
      beq_nil_nil, hne]
  have hfm : (loadSkill (fsM1a n) ["h", ".agents", "skills", n]
      ScopeGlobal CategoryDefault).toOption = some (skC3a n) := by
    rw [show (["h", ".agents", "skills", n] : Path) =
      ["h", ".agents", "skills"] ++ [n] from rfl, hload]
    rfl
  simp [Store.getResolved, Store.getAll, Store.getGlobalSkills,
    Store.getProjectSkills, storeC3, loadAllInDir, hlist, hlistOpt, hfm,
    hne, resolveSkills, bestByName, updateBest, sortByName,
    List.insertionSort, List.orderedInsert, List.find?,
    List.filterMap_cons, List.filterMap_nil]

/-- The filesystem after the forced re-sync (claude-first order): managed
links at both targets pointing at the single canonical copy. -/
def fsM2a (n : String) : Fs :=
  [(["h", ".codex", "skills"] ++ [n],
     .symlink (["h", ".agents", "skills"] ++ [n])),
   (["h", ".codex"], .dir),
   (["h", ".claude", "skills"] ++ [n],
     .symlink (["h", ".agents", "skills"] ++ [n])),
   (["h", ".claude"], .dir),
   (["h"], .dir),
   (["h", ".agents", "skills"], .dir),
   (["h", ".claude", "skills"], .dir),
   (["h", ".agents", "skills"] ++ [n], .dir),
   (["h", ".agents", "skills"] ++ [n, "SKILL.md"], .file contentC3a),
   (["h", ".codex", "skills"], .dir)]

lemma migrate_syncA (n : String) :
    syncLoop "symlink" envC3 [claudeW, codexW] [skC3a n] ⟨false, true, none⟩
      (fsM1a n) =
    ([⟨n, "claude", .install, none⟩, ⟨n, "codex", .install, none⟩],
      fsM2a n) := by
  have hpp1 : pathPrefixes ["h", ".claude", "skills"] =
      [["h"], ["h", ".claude"], ["h", ".claude", "skills"]] := rfl
  have hpp2 : pathPrefixes ["h", ".codex", "skills"] =
      [["h"], ["h", ".codex"], ["h", ".codex", "skills"]] := rfl
  simp [syncLoop, syncSkillsAtTarget, syncSkill, isInstalledInScope,
    installSkill, installAt, mkdirAllFs, hpp1, hpp2, mkdirList, symlinkFs,
    copyDirFs, setFs, removeAllFs, getSkillsPath, expandPath, lookupFs,
    existsFs, statPlain, fsM1a, fsM2a, skC3a, envC3, claudeW, codexW,
    List.find?, beq_cons_cons, beq_nil_cons, beq_cons_nil, beq_nil_nil,
    isPrefixOf_cons_cons, isPrefixOf_nil_any, isPrefixOf_cons_nil,
    ScopeGlobal, ScopeProject, StrategySymlink, StrategyCopy]

/-- The filesystem after the move phase when the codex-sourced copy is
processed first. -/
def fsM1b (n : String) : Fs :=
  [(["h", ".agents", "skills"], .dir),
   (["h", ".claude", "skills"], .dir),
   (["h", ".codex", "skills"], .dir),
   (["h", ".agents", "skills"] ++ [n], .dir),
   (["h", ".agents", "skills"] ++ [n, "SKILL.md"], .file contentC3b)]

/-- The skill the store loads back after the move (codex-first order). -/
def skC3b (n : String) : Skill :=
  ⟨n, "from codex", ["h", ".agents", "skills"] ++ [n],
    ScopeGlobal, CategoryDefault⟩

/-- The filesystem after the forced re-sync (codex-first order). -/
def fsM2b (n : String) : Fs :=
  [(["h", ".codex", "skills"] ++ [n],
     .symlink (["h", ".agents", "skills"] ++ [n])),
   (["h", ".codex"], .dir),
   (["h", ".claude", "skills"] ++ [n],
     .symlink (["h", ".agents", "skills"] ++ [n])),
   (["h", ".claude"], .dir),
   (["h"], .dir),
   (["h", ".agents", "skills"], .dir),
   (["h", ".claude", "skills"], .dir),
   (["h", ".codex", "skills"], .dir),
   (["h", ".agents", "skills"] ++ [n], .dir),
   (["h", ".agents", "skills"] ++ [n, "SKILL.md"], .file contentC3b)]

lemma migrate_moveB (n : String) :
    moveSkillsToAgents envC3 [claudeW, codexW] (getAgentsDir envC3 cfgC3 [])
      [("codex", [n]), ("claude", [n])] ScopeGlobal (fsC3 n) =
    ([⟨n, "codex", .moved⟩, ⟨n, "claude", .removed⟩], fsM1b n) := by
  simp [moveSkillsToAgents, moveOne, getAgentsDir, expandPath, getSkillsPath,
    fsC3, fsM1b, envC3, cfgC3, claudeW, codexW, renameFs, removeAllFs,
    lookupFs, existsFs, statPlain, List.find?, List.contains, List.elem,
    beq_cons_cons, beq_nil_cons, beq_cons_nil, beq_nil_nil,
    isPrefixOf_cons_cons, isPrefixOf_nil_any, isPrefixOf_cons_nil,
    ScopeGlobal, ScopeProject]

lemma migrate_loadB (n : String) (hvn : ValidateName n = .ok ())
    (hne : (n == "optional") = false) :
    storeC3.getResolved (fsM1b n) = .ok [skC3b n] := by
  have hpf : parseFrontmatter contentC3b = .ok ⟨"", "from codex"⟩ := rfl
  have htr : trimSpace "from codex" = "from codex" := rfl
  have hload : loadSkill (fsM1b n) (["h", ".agents", "skills"] ++ [n])
      ScopeGlobal CategoryDefault = .ok (skC3b n) := by
    simp [loadSkill, findSkillFile, findSkillFileAux, readDirFs, readFileFs,
      isDirFs, lookupFs, existsFs, statPlain, fsM1b, skC3b, List.find?,
      beq_cons_cons, beq_nil_cons, beq_cons_nil, beq_nil_nil, hvn, hpf, htr,
      List.getLastD, DirEntry.isDir, DirEntry.isSymlink]
  have hlist : listSkillsInDir (fsM1b n) ["h", ".agents", "skills"] =
      .ok [n] := by
    simp [listSkillsInDir, readDirFs, isDirFs, lookupFs, existsFs, statPlain,
      isValidSkillDir, isValidSkillDirAux, fsM1b, List.find?, beq_cons_cons,
      beq_nil_cons, beq_cons_nil, beq_nil_nil, List.getLastD, DirEntry.isDir,
      DirEntry.isSymlink]
  have hlistOpt : listSkillsInDir (fsM1b n)
      ["h", ".agents", "skills", "optional"] = .ok [] := by
    simp [listSkillsInDir, readDirFs, isDirFs, lookupFs, existsFs, statPlain,
      fsM1b, List.find?, beq_cons_cons, beq_nil_cons, beq_cons_nil,
      beq_nil_nil, hne]
  have hfm : (loadSkill (fsM1b n) ["h", ".agents", "skills", n]
      ScopeGlobal CategoryDefault).toOption = some (skC3b n) := by
    rw [show (["h", ".agents", "skills", n] : Path) =
      ["h", ".agents", "skills"] ++ [n] from rfl, hload]
    rfl
  simp [Store.getResolved, Store.getAll, Store.getGlobalSkills,
    Store.getProjectSkills, storeC3, loadAllInDir, hlist, hlistOpt, hfm,
    hne, resolveSkills, bestByName, updateBest, sortByName,
    List.insertionSort, List.orderedInsert, List.find?,
    List.filterMap_cons, List.filterMap_nil]

lemma migrate_syncB (n : String) :
    syncLoop "symlink" envC3 [claudeW, codexW] [skC3b n] ⟨false, true, none⟩
      (fsM1b n) =
    ([⟨n, "claude", .install, none⟩, ⟨n, "codex", .install, none⟩],
      fsM2b n) := by
  have hpp1 : pathPrefixes ["h", ".claude", "skills"] =
      [["h"], ["h", ".claude"], ["h", ".claude", "skills"]] := rfl
  have hpp2 : pathPrefixes ["h", ".codex", "skills"] =
      [["h"], ["h", ".codex"], ["h", ".codex", "skills"]] := rfl
  simp [syncLoop, syncSkillsAtTarget, syncSkill, isInstalledInScope,
    installSkill, installAt, mkdirAllFs, hpp1, hpp2, mkdirList, symlinkFs,
    copyDirFs, setFs, removeAllFs, getSkillsPath, expandPath, lookupFs,
    existsFs, statPlain, fsM1b, fsM2b, skC3b, envC3, claudeW, codexW,
    List.find?, beq_cons_cons, beq_nil_cons, beq_cons_nil, beq_nil_nil,
    isPrefixOf_cons_cons, isPrefixOf_nil_any, isPrefixOf_cons_nil,
    ScopeGlobal, ScopeProject, StrategySymlink, StrategyCopy]

/-- C3 (amended): for every valid skill name other than the reserved
`optional`, present as an unmanaged directory under both targets, Migrate in
either processing order leaves exactly one canonical copy — the one from
whichever target was processed first — removes both target source
directories (recording the second as Removed), and the forced re-sync
installs a managed symlink for the name back into both targets. -/
theorem migrate_two_targets_unreserved (n : String)
    (hv : validName n = true) (hne : (n == "optional") = false) :
    migC3 [("claude", [n]), ("codex", [n])] n =
      .ok (([⟨n, "claude", .moved⟩, ⟨n, "codex", .removed⟩],
            [⟨n, "claude", .install, none⟩, ⟨n, "codex", .install, none⟩]),
           fsM2a n) ∧
    lookupFs (fsM2a n) (["h", ".claude", "skills"] ++ [n]) =
      some (.symlink (["h", ".agents", "skills"] ++ [n])) ∧
    lookupFs (fsM2a n) (["h", ".codex", "skills"] ++ [n]) =
      some (.symlink (["h", ".agents", "skills"] ++ [n])) ∧
    readDirFs (fsM2a n) ["h", ".agents", "skills"] =
      .ok [⟨n, FsNode.dir⟩] ∧
    lookupFs (fsM2a n) (["h", ".agents", "skills"] ++ [n, "SKILL.md"]) =
      some (.file contentC3a) ∧
    migC3 [("codex", [n]), ("claude", [n])] n =
      .ok (([⟨n, "codex", .moved⟩, ⟨n, "claude", .removed⟩],
            [⟨n, "claude", .install, none⟩, ⟨n, "codex", .install, none⟩]),
           fsM2b n) ∧
    lookupFs (fsM2b n) (["h", ".agents", "skills"] ++ [n, "SKILL.md"]) =
      some (.file contentC3b) := by
  have hvn : ValidateName n = .ok () := by
    unfold validName at hv
    cases h : ValidateName n with
    | ok u =>
      cases u
      rfl
    | error e =>
      rw [h] at hv
      exact Bool.noConfusion hv
  refine ⟨?_, ?_, ?_, ?_, ?_, ?_, ?_⟩
  · simp only [migC3, migrate]
    rw [migrate_moveA n]
    simp [migrate_loadA n hvn hne, migrate_syncA n, cfgC3]
  · simp [lookupFs, fsM2a, List.find?, beq_cons_cons, beq_nil_cons,
      beq_cons_nil, beq_nil_nil]
  · simp [lookupFs, fsM2a, List.find?, beq_cons_cons, beq_nil_cons,
      beq_cons_nil, beq_nil_nil]
  · simp [readDirFs, isDirFs, lookupFs, fsM2a, List.find?, beq_cons_cons,
      beq_nil_cons, beq_cons_nil, beq_nil_nil, List.getLastD]
  · simp [lookupFs, fsM2a, List.find?, beq_cons_cons, beq_nil_cons,
      beq_cons_nil, beq_nil_nil]
  · simp only [migC3, migrate]
    rw [migrate_moveB n]
    simp [migrate_loadB n hvn hne, migrate_syncB n, cfgC3]
  · simp [lookupFs, fsM2b, List.find?, beq_cons_cons, beq_nil_cons,
      beq_cons_nil, beq_nil_nil]

/-- Witness for the amended C3 at the concrete name `demo`. -/
theorem migrate_two_targets_unreserved_witness :
    migC3 [("claude", ["demo"]), ("codex", ["demo"])] "demo" =
      .ok (([⟨"demo", "claude", .moved⟩, ⟨"demo", "codex", .removed⟩],
            [⟨"demo", "claude", .install, none⟩,
             ⟨"demo", "codex", .install, none⟩]),
           fsM2a "demo") :=
  (migrate_two_targets_unreserved "demo" (by decide) (by decide)).1

end Skillet
